import Mathlib

/-!
Verification of the product-refinement repository against its specification.

The embedding models strings as `List Char` (`Str`) so that Python string
operations (`split`, `strip`, `replace`, `endswith`, `int(...)`) can be
translated faithfully and reasoned about by structural induction.

Components embedded below, each translated from the repository source:
  * storage (`src/product_refinement/utils/storage.py`): version computation,
    save/load of specification records, listing, legacy migration;
  * AI service (`src/product_refinement/ai/service.py`): response cache,
    model binding with retry, follow-up-question parsing with heuristic
    fallback, and the caching decorator;
  * CLI refinement loop (`src/product_refinement/cli/commands.py`).
-/

set_option autoImplicit false

set_option maxRecDepth 8192

abbrev Str := List Char

/-- Python `s.lower()` (ASCII range, as `Char.toLower`). -/
def pyLowerStr (s : Str) : Str := s.map Char.toLower

/-- Python `project_name.lower().replace(' ', '_')`: the project slug used as
a directory and filename stem throughout `storage.py`. -/
def pySlug (p : Str) : Str := (pyLowerStr p).map (fun c => if c = ' ' then '_' else c)

/-- Python `s.split(sep)` for a one-character separator `sep`. -/
def splitChar (sep : Char) : Str → List Str
  | [] => [[]]
  | c :: rest =>
    if c = sep then [] :: splitChar sep rest
    else (c :: (splitChar sep rest).headD []) :: (splitChar sep rest).tail

/-- Python `s.split('_v')`: leftmost, non-overlapping matches of the
two-character separator used by the version-number parsing in
`SpecificationManager._get_spec_path` and `save_specification`. -/
def splitV : Str → List Str
  | [] => [[]]
  | [c] => [[c]]
  | c₁ :: c₂ :: rest =>
    if c₁ = '_' ∧ c₂ = 'v' then [] :: splitV rest
    else (c₁ :: (splitV (c₂ :: rest)).headD []) :: (splitV (c₂ :: rest)).tail

/-- Python `'_v' in s` (membership is equivalent to `len(s.split('_v')) >= 2`). -/
def hasV (s : Str) : Bool := decide (1 < (splitV s).length)

/-- The decimal digit characters, used to print version numbers. -/
def digitChar : Nat → Char
  | 0 => '0'
  | 1 => '1'
  | 2 => '2'
  | 3 => '3'
  | 4 => '4'
  | 5 => '5'
  | 6 => '6'
  | 7 => '7'
  | 8 => '8'
  | 9 => '9'
  | _ => '*'

/-- Decimal digit characters of `n`, most significant first; `fuel`-driven so
that the definition reduces by iota (the fuel `n` itself always suffices). -/
def natCharsGo : Nat → Nat → Str
  | 0, _ => []
  | fuel + 1, n => if n = 0 then [] else natCharsGo fuel (n / 10) ++ [digitChar (n % 10)]

/-- Python `str(n)` for a natural number. -/
def natChars (n : Nat) : Str :=
  if n = 0 then ['0'] else natCharsGo n n

/-- Python `int(s)` restricted to strings of decimal digits; `none` models a
`ValueError` being raised. -/
def pyNatParse (s : Str) : Option Nat :=
  if !s.isEmpty && s.all Char.isDigit then
    some (s.foldl (fun a c => 10 * a + (c.toNat - 48)) 0)
  else none

/-- Boolean prefix test on character lists. -/
def prefB : Str → Str → Bool
  | [], _ => true
  | _ :: _, [] => false
  | a :: as, b :: bs => a = b && prefB as bs

/-- Python `s.startswith(p)`. -/
def startsWithB (p s : Str) : Bool := prefB p s

/-- Python `s.endswith(p)`. -/
def endsWithB (p s : Str) : Bool := prefB p.reverse s.reverse

/-- Python `p in s` for substring containment. -/
def containsSubB (p : Str) : Str → Bool
  | [] => prefB p []
  | c :: rest => prefB p (c :: rest) || containsSubB p rest

/-- Python whitespace, as recognised by `str.strip()`. -/
def pyIsSpace (c : Char) : Bool :=
  c = ' ' || c = '\t' || c = '\n' || c = '\r' || c = '\x0b' || c = '\x0c'

/-- Strip characters satisfying `p` from both ends (Python `strip`). -/
def pyStripPred (p : Char → Bool) (s : Str) : Str :=
  ((s.dropWhile p).reverse.dropWhile p).reverse

/-- Python `s.strip()`. -/
def pyStrip (s : Str) : Str := pyStripPred pyIsSpace s

/-- Python `s.rstrip(':')`. -/
def pyRStripColon (s : Str) : Str := (s.reverse.dropWhile (fun c => c = ':')).reverse

/-- Python `s.strip('",')`. -/
def pyStripQuoteComma (s : Str) : Str := pyStripPred (fun c => c = '"' || c = ',') s

/-- Python `s.replace(pat, rep)` (leftmost, non-overlapping); fuel-driven. -/
def replaceSub (pat rep : Str) : Nat → Str → Str
  | 0, s => s
  | _ + 1, [] => []
  | fuel + 1, c :: rest =>
    if prefB pat (c :: rest) then
      rep ++ replaceSub pat rep fuel ((c :: rest).drop pat.length)
    else c :: replaceSub pat rep fuel rest

/-- Python `c in s` for a single character. -/
def containsChar (c : Char) (s : Str) : Bool := s.any (fun d => d = c)

/-! ## Storage embedding (`src/src/product_refinement/utils/storage.py`)

The on-disk store is modelled as an association list from structured paths
`{SPECS_DIR}/{slug}/{docType}/{filename}` to the JSON records written by
`save_specification`.  `os.listdir` of a `doc_type` directory is the list of
filenames whose path matches that partition, in store order. -/

/-- A path under `SPECS_DIR`: project slug, document type, filename. -/
structure SpecPath where
  slug : Str
  docType : Str
  filename : Str
deriving DecidableEq

/-- The JSON record written by `save_specification`. `docType = none` models a
record whose JSON object lacks the `doc_type` key (legacy records). -/
structure SpecRecord where
  version : Nat
  timestamp : Int
  formattedTimestamp : Str
  productName : Str
  specification : Str
  docType : Option Str
deriving DecidableEq

abbrev FSStore := List (SpecPath × SpecRecord)

def lookupFS : FSStore → SpecPath → Option SpecRecord
  | [], _ => none
  | e :: es, p => if e.1 = p then some e.2 else lookupFS es p

/-- Writing a file: overwrite in place if the path exists, else the directory
gains a new entry. -/
def writeFS : FSStore → SpecPath → SpecRecord → FSStore
  | [], p, r => [(p, r)]
  | e :: es, p, r => if e.1 = p then (p, r) :: es else e :: writeFS es p r

/-- `os.listdir` of the `doc_type` directory of a project: the filenames in
that (slug, docType) partition. -/
def partitionFiles (st : FSStore) (slug docType : Str) : List Str :=
  (st.filter (fun e => e.1.slug = slug ∧ e.1.docType = docType)).map (fun e => e.1.filename)

/-- The `".json"` suffix. -/
def jsonExt : Str := ('.' :: ('j' :: ('s' :: ('o' :: ('n' :: [])))))

/-- The `"_todo.json"` suffix. -/
def todoJsonExt : Str := ('_' :: ('t' :: ('o' :: ('d' :: ('o' :: jsonExt)))))

/-- The version-number computation of `SpecificationManager._get_spec_path`:
filter `*.json` files that are not `*_todo.json`, parse
`int(f.split('_v')[1].split('.')[0])` for those containing `'_v'`, and take
`max + 1` (1 if the partition is empty).  `none` models the `ValueError`
raised when some parse fails. -/
def nextVersion (files : List Str) : Option Nat :=
  let existing := files.filter (fun f => endsWithB jsonExt f && !endsWithB todoJsonExt f)
  if existing.isEmpty then some 1
  else
    let withV := existing.filter hasV
    let parses := withV.map (fun f => pyNatParse ((splitChar '.' ((splitV f).getD 1 [])).headD []))
    if parses.any (fun o => o.isNone) then none
    else
      let versions := parses.filterMap id
      if versions.isEmpty then some 1
      else some (versions.foldl max 0 + 1)

/-- The filename generated by `_get_spec_path`:
`f"{project_name.lower().replace(' ', '_')}_v{version}.json"`. -/
def mkFilename (slug : Str) (v : Nat) : Str :=
  slug ++ ('_' :: ('v' :: (natChars v ++ jsonExt)))

/-- `os.path.join(SPECS_DIR, slug, docType, filename)` as a flat string. -/
def pathStr (specsDir : Str) (p : SpecPath) : Str :=
  specsDir ++ ('/' :: (p.slug ++ ('/' :: (p.docType ++ ('/' :: p.filename)))))

/-- `int(spec_path.split('_v')[-1].split('.')[0])` from `save_specification`:
the version recorded in the saved JSON record.  `none` models `ValueError`. -/
def recordedVersion (path : Str) : Option Nat :=
  pyNatParse ((splitChar '.' ((splitV path).getLastD [])).headD [])

/-- `SpecificationManager.save_specification` (with `doc_type` given
explicitly).  Returns the path written, the record, and the updated store;
`none` models an uncaught `ValueError` from version parsing. -/
def saveSpecification (specsDir : Str) (st : FSStore) (projectName specification docType : Str)
    (now : Int) (fmtNow : Str) : Option (SpecPath × SpecRecord × FSStore) :=
  let slug := pySlug projectName
  match nextVersion (partitionFiles st slug docType) with
  | none => none
  | some v =>
    let p : SpecPath := ⟨slug, docType, mkFilename slug v⟩
    match recordedVersion (pathStr specsDir p) with
    | none => none
    | some rv =>
      let r : SpecRecord :=
        ⟨rv, now, fmtNow, projectName, specification, some docType⟩
      some (p, r, writeFS st p r)

/-- `SpecificationManager.load_specification`: read the record at a path; if
its JSON lacks `doc_type`, infer it from the path component before the
filename (`path_parts[-2]`). -/
def loadSpecification (st : FSStore) (p : SpecPath) : Option SpecRecord :=
  match lookupFS st p with
  | none => none
  | some r =>
    match r.docType with
    | some _ => some r
    | none => some { r with docType := some p.docType }

/-- One round of saves: the schedule `ds` lists the target document type of
each successive `save_specification` call for project `p`; `content`, `now`
and `fmt` give the specification text and timestamps of the i-th save.  The
log collects, per save, the target document type and the `version` field of
the record written. -/
def runSchedule (specsDir : Str) (p : Str) (content : Nat → Str) (now : Nat → Int)
    (fmt : Nat → Str) : List Str → FSStore → List (Str × Nat) → Option (FSStore × List (Str × Nat))
  | [], st, log => some (st, log)
  | dt :: ds, st, log =>
    match saveSpecification specsDir st p (content log.length) dt (now log.length) (fmt log.length) with
    | none => none
    | some (_, rec, st') => runSchedule specsDir p content now fmt ds st' (log ++ [(dt, rec.version)])

/-- The versions logged for document type `t`. -/
def logVersions (log : List (Str × Nat)) (t : Str) : List Nat :=
  (log.filter (fun e => e.1 = t)).map (fun e => e.2)

/-! ## Response cache (`AIService.get_cached_response` / `save_to_cache`) -/

/-- A cache file on disk: its modification time and its payload; `payload =
none` models a file that cannot be read or unpickled (the `except` branch of
`get_cached_response`). -/
structure CacheEntry (α : Type) where
  mtime : Int
  payload : Option α
deriving DecidableEq

/-- `AIService.get_cached_response`: miss when there is no file, when
`time.time() - getmtime(file) > CACHE_EXPIRY`, or when reading/unpickling
fails.  The function is total: no exception escapes to the caller. -/
def getCachedResponse {α : Type} (now expiry : Int) (entry : Option (CacheEntry α)) : Option α :=
  match entry with
  | none => none
  | some e => if expiry < now - e.mtime then none else e.payload

abbrev Cache (α : Type) := List (Str × CacheEntry α)

def cacheLookup {α : Type} : Cache α → Str → Option (CacheEntry α)
  | [], _ => none
  | x :: xs, k => if x.1 = k then some x.2 else cacheLookup xs k

def cacheSet {α : Type} : Cache α → Str → CacheEntry α → Cache α
  | [], k, e => [(k, e)]
  | x :: xs, k, e => if x.1 = k then (k, e) :: xs else x :: cacheSet xs k e

/-- `AIService.get_cache_key`: the cache key is the md5 of
`f"{method_name}:{MODEL_NAME}:{args}"`; md5 is modelled by the (injective)
preimage string itself. -/
def getCacheKey (methodName modelName args : Str) : Str :=
  methodName ++ (':' :: (modelName ++ (':' :: args)))

/-- The `cached_ai_call` decorator: look up the key; on a hit return the
cached value without calling the wrapped method; on a miss call it, write the
result to the cache (file mtime = write time), and return it.  The boolean
reports whether the wrapped method (and hence the backend) was invoked. -/
def cachedAiCall {α : Type} (cache : Cache α) (now expiry : Int) (k : Str)
    (method : Unit → α) : α × Cache α × Bool :=
  match getCachedResponse now expiry (cacheLookup cache k) with
  | some v => (v, cache, false)
  | none =>
    let v := method ()
    (v, cacheSet cache k ⟨now, some v⟩, true)

/-! ## Model binding with retry (`AIService._get_model` / `ask`) -/

/-- Outcome of one `llm.get_model` attempt: success, a `ConnectionError`
(transient), or any other exception. -/
inductive Fetch (α : Type) where
  | ok (m : α)
  | connErr
  | otherErr

/-- The retry loop of `AIService._get_model`: `for attempt in
range(max_retries)` with `time.sleep(retry_delay * (2 ** attempt))` before
each retry on `ConnectionError`, immediate `None` on any other exception.
Returns (number of attempts made, the backoff delays slept, the bound model
or `None`).  `retriesLeft` counts the remaining loop iterations, so
`attempt < max_retries - 1` is `1 < retriesLeft`. -/
def getModelGo {α : Type} (backend : Nat → Fetch α) (delay : ℚ) :
    Nat → Nat → Nat × List ℚ × Option α
  | 0, _ => (0, [], none)
  | retriesLeft + 1, attempt =>
    match backend attempt with
    | .ok m => (1, [], some m)
    | .connErr =>
      if retriesLeft = 0 then (1, [], none)
      else
        let r := getModelGo backend delay retriesLeft (attempt + 1)
        (r.1 + 1, delay * 2 ^ attempt :: r.2.1, r.2.2)
    | .otherErr => (1, [], none)

/-- `AIService._get_model` with no model bound yet (`self.llm is None`). -/
def getModelRun {α : Type} (backend : Nat → Fetch α) (delay : ℚ) (maxRetries : Nat) :
    Nat × List ℚ × Option α :=
  getModelGo backend delay maxRetries 0

/-- The error string `ask` returns when `_get_model` yields `None`. -/
def errCouldNotAccess : Str :=
  ("ERROR: Could not access the AI model.".toList)

/-- The outcome of `AIService.ask` as far as model binding is concerned: when
`_get_model` returns `None`, `ask` returns the `ERROR:`-prefixed string
instead of raising; otherwise it returns the generated text. -/
def askOutcome {α : Type} (modelResult : Option α) (generate : α → Str) : Str :=
  match modelResult with
  | none => errCouldNotAccess
  | some m => generate m

/-! ## JSON parsing and follow-up questions (`AIService.get_follow_up_questions`,
`AIService._extract_questions_from_text`)

`json.loads` is modelled by a recursive-descent parser for the JSON subset
without escape sequences and without fractional/exponential or signed-zero
number forms; anything it accepts is valid JSON.  Inputs outside the subset
are treated as parse failures (`json.JSONDecodeError`). -/

def lbrace : Char := Char.ofNat 123

def rbrace : Char := Char.ofNat 125

/-- A parsed JSON value (Python object returned by `json.loads`). -/
inductive JVal where
  | jstr (s : Str)
  | jint (n : Int)
  | jbool (b : Bool)
  | jnull
  | jarr (xs : List JVal)
  | jobj (fields : List (Str × JVal))

/-- JSON whitespace. -/
def jsonWs (c : Char) : Bool := c = ' ' || c = '\n' || c = '\t' || c = '\r'

def skipWs (s : Str) : Str := s.dropWhile jsonWs

/-- Parse the body of a JSON string after the opening quote; no escapes, no
control characters. -/
def parseStringBody : Str → Option (Str × Str)
  | [] => none
  | c :: rest =>
    if c = '"' then some ([], rest)
    else if c = '\\' || decide (c.toNat < 32) then none
    else
      match parseStringBody rest with
      | some (s, r) => some (c :: s, r)
      | none => none

/-- Parse a run of decimal digits. -/
def parseDigitRun (s : Str) : Option (Nat × Str) :=
  let digits := s.takeWhile Char.isDigit
  if digits.isEmpty then none
  else some (digits.foldl (fun a c => 10 * a + (c.toNat - 48)) 0, s.drop digits.length)

/-- Parse a JSON integer (optional leading minus). -/
def parseIntJ (s : Str) : Option (Int × Str) :=
  match s with
  | '-' :: rest =>
    match parseDigitRun rest with
    | some (n, r) => some (-(n : Int), r)
    | none => none
  | _ =>
    match parseDigitRun s with
    | some (n, r) => some ((n : Int), r)
    | none => none

mutual

def parseVal : Nat → Str → Option (JVal × Str)
  | 0, _ => none
  | fuel + 1, s =>
    match skipWs s with
    | [] => none
    | c :: rest =>
      if c = '"' then
        match parseStringBody rest with
        | some (str, r) => some (.jstr str, r)
        | none => none
      else if c = '[' then
        match skipWs rest with
        | ']' :: r2 => some (.jarr [], r2)
        | r1 =>
          match parseArrItems fuel r1 with
          | some (xs, r2) => some (.jarr xs, r2)
          | none => none
      else if c = lbrace then
        match skipWs rest with
        | d :: r2 =>
          if d = rbrace then some (.jobj [], r2)
          else
            match parseObjItems fuel (d :: r2) with
            | some (fs, r3) => some (.jobj fs, r3)
            | none => none
        | [] => none
      else if c = 't' then
        if prefB ("rue".toList) rest then some (.jbool true, rest.drop 3) else none
      else if c = 'f' then
        if prefB ("alse".toList) rest then some (.jbool false, rest.drop 4) else none
      else if c = 'n' then
        if prefB ("ull".toList) rest then some (.jnull, rest.drop 3) else none
      else if c = '-' || c.isDigit then
        match parseIntJ (c :: rest) with
        | some (n, r) => some (.jint n, r)
        | none => none
      else none

def parseArrItems : Nat → Str → Option (List JVal × Str)
  | 0, _ => none
  | fuel + 1, s =>
    match parseVal fuel s with
    | none => none
    | some (v, r) =>
      match skipWs r with
      | ',' :: r2 =>
        match parseArrItems fuel r2 with
        | some (vs, r3) => some (v :: vs, r3)
        | none => none
      | ']' :: r2 => some ([v], r2)
      | _ => none

def parseObjItems : Nat → Str → Option (List (Str × JVal) × Str)
  | 0, _ => none
  | fuel + 1, s =>
    match skipWs s with
    | '"' :: rest =>
      match parseStringBody rest with
      | some (key, r) =>
        match skipWs r with
        | ':' :: r2 =>
          match parseVal fuel r2 with
          | some (v, r3) =>
            match skipWs r3 with
            | ',' :: r4 =>
              match parseObjItems fuel r4 with
              | some (fs, r5) => some ((key, v) :: fs, r5)
              | none => none
            | c2 :: r4 => if c2 = rbrace then some ([(key, v)], r4) else none
            | [] => none
          | none => none
        | _ => none
      | none => none
    | _ => none

end

/-- `json.loads` on the modelled subset: parse one value and require the rest
of the input to be whitespace. -/
def jsonLoads (s : Str) : Option JVal :=
  match parseVal (s.length + 1) s with
  | some (v, r) => if (skipWs r).isEmpty then some v else none
  | none => none

/-- `isinstance(question, dict) and 'section' in question and 'question' in
question`. -/
def isValidQuestion (v : JVal) : Bool :=
  match v with
  | .jobj fields =>
    (fields.any (fun f => f.1 = ("section".toList))) &&
    (fields.any (fun f => f.1 = ("question".toList)))
  | _ => false

/-- The pattern `'"question":'`. -/
def questionKeyPat : Str := '"' :: (("question".toList) ++ ['"', ':'])

/-- One iteration of the line loop of `AIService._extract_questions_from_text`:
the state is (current_section, questions collected so far). -/
def extractLine (st : Str × List JVal) (rawLine : Str) : Str × List JVal :=
  let line := pyStrip rawLine
  if endsWithB [':'] line && !startsWithB ['"'] line && decide (line.length < 50) then
    (pyStrip (pyRStripColon line), st.2)
  else
    let line2 :=
      if startsWithB questionKeyPat line then
        let l' := pyStrip (replaceSub questionKeyPat [] line.length line)
        if startsWithB ['"'] l' && endsWithB ['"'] l' then (l'.drop 1).dropLast else l'
      else line
    if containsChar '?' line2 && decide (10 < line2.length) then
      (st.1, st.2 ++ [JVal.jobj [(("section".toList), .jstr st.1), (("question".toList), .jstr (pyStripQuoteComma line2))]])
    else (st.1, st.2)

/-- `AIService._extract_questions_from_text`: scan lines for section headers
and question marks, and return at most one extracted question
(`questions[:1]`). -/
def extractQuestionsFromText (text : Str) : List JVal :=
  (((splitChar '\n' text).foldl extractLine (("General".toList), [])).2).take 1

/-- The `"ERROR:"` marker produced by `ask` on failure. -/
def errMark : Str := ("ERROR:".toList)

/-- `AIService.get_follow_up_questions` applied to the text returned by
`ask`: an `ERROR:` result yields `[]`; otherwise the reply is parsed as JSON
(an array keeps its well-formed question objects, any other JSON value yields
`[]`), and on a parse failure the heuristic extractor is used. -/
def getFollowUpQuestionsResp (response : Str) : List JVal :=
  if startsWithB errMark response then []
  else
    match jsonLoads response with
    | some (.jarr items) => items.filter isValidQuestion
    | some _ => []
    | none => extractQuestionsFromText response

/-- The number of elements of a parsed JSON array (0 otherwise); used to
bound the size of the question list. -/
def jarrLen (v : Option JVal) : Nat :=
  match v with
  | some (.jarr items) => items.length
  | _ => 0

/-! ## Cacheable method bodies (`finalize_spec`, `generate_initial_spec`) -/

/-- `AIService.finalize_spec` applied to the text returned by `ask`: on an
`ERROR:` result the unfinalized input `spec` is returned unchanged. -/
def finalizeSpecBody (askResult spec : Str) : Str :=
  if startsWithB errMark askResult then spec else askResult

/-- The placeholder `generate_initial_spec` returns when the user declines to
retry after an error. -/
def initialSpecPlaceholder : Str :=
  ("Error occurred during generation. Please add specification details manually.".toList)

/-- `AIService.generate_initial_spec` applied to the text returned by `ask`:
on an `ERROR:` result the user is asked whether to retry; declining yields the
placeholder, accepting yields the retry call's result. -/
def generateInitialSpecBody (askResult : Str) (retryAccepted : Bool) (retryResult : Str) : Str :=
  if startsWithB errMark askResult then
    if retryAccepted then retryResult else initialSpecPlaceholder
  else askResult

/-! ## The question/answer loop of `create_spec` (`cli/commands.py`)

The AI backend and the user terminal are scripted: `batches` lists the
successive return values of `get_follow_up_questions`, and `answers` the
successive strings returned by `ask_user`.  A `none` result models the
process blocking on an exhausted script (awaiting further input).  The state
records the draft, the answered questions, every question presented to the
user (`display_info` + first prompt), and the number of `finalize_spec`
("Updating specification...") invocations. -/

structure QItem where
  sect : Str
  ques : Str
deriving DecidableEq

structure EngineState where
  spec : Str
  answered : List (Str × Str × Str)
  presented : List Str
  finalizeCount : Nat
deriving DecidableEq

inductive AnswerOut where
  | adone
  | askip
  | aok (ans : Str)

/-- The inner `while True` of the question loop: read an answer; `done` and
`skip` are recognised case-insensitively; an answer that is empty after
stripping raises `ValidationError` and re-prompts. -/
def answerLoop : List Str → Option (AnswerOut × List Str)
  | [] => none
  | a :: rest =>
    if pyLowerStr a = ("done".toList) then some (.adone, rest)
    else if pyLowerStr a = ("skip".toList) then some (.askip, rest)
    else if (pyStrip a).isEmpty then answerLoop rest
    else some (.aok a, rest)

/-- The `for question in questions` loop.  Crucially, the Python statement
`questions = []` on `done` rebinds the name without affecting the iterator,
so iteration continues over the remaining questions of the batch; the
rebinding is modelled by the `doneFlag` (examined only after the loop). -/
def processBatch : List QItem → List Str → EngineState → Bool →
    Option (List Str × EngineState × Bool)
  | [], answers, st, doneFlag => some (answers, st, doneFlag)
  | q :: qs, answers, st, doneFlag =>
    let st1 := { st with presented := st.presented ++ [q.ques] }
    match answerLoop answers with
    | none => none
    | some (.adone, rest) => processBatch qs rest st1 true
    | some (.askip, rest) => processBatch qs rest st1 doneFlag
    | some (.aok a, rest) =>
      processBatch qs rest
        { st1 with answered := st1.answered ++ [(q.sect, q.ques, a)] } doneFlag

/-- The outer refinement loop of `create_spec`: fetch a batch; an empty batch
ends the loop; after the batch, `if not questions: break` ends the loop when
`done` was typed; otherwise `finalize_spec` rewrites the draft and the loop
repeats. -/
def refineLoop (finalize : Str → Str) :
    List (List QItem) → List Str → EngineState → Option EngineState
  | [], _, _ => none
  | batch :: batches, answers, st =>
    if batch.isEmpty then some st
    else
      match processBatch batch answers st false with
      | none => none
      | some (rest, st', doneFlag) =>
        if doneFlag then some st'
        else
          refineLoop finalize batches rest
            { st' with spec := finalize st'.spec, finalizeCount := st'.finalizeCount + 1 }

/-! ## Listing (`SpecificationManager.list_specifications`)

The per-(project, document-type) portion: read each file of the partition
(`none` models a corrupt JSON file, which is skipped with a warning), build
the metadata dictionaries with their `.get` defaults, and sort with Python's
stable `list.sort(key=lambda x: x.get('timestamp', 0))`. -/

/-- A raw record as read from disk; every field optional (`dict.get`). -/
structure RawSpec where
  version : Option Nat
  timestamp : Option Int
  formattedTimestamp : Option Str
  productName : Option Str
deriving DecidableEq

/-- The metadata dictionary built for each listed file. -/
structure SpecMeta where
  filename : Str
  version : Nat
  timestamp : Int
  formattedTimestamp : Str
  productName : Str
  docType : Str
deriving DecidableEq

/-- Stable insertion into a sorted-by-timestamp list: the new element goes
after every element with a smaller-or-equal key (Python sort stability). -/
def insertByTs (x : SpecMeta) : List SpecMeta → List SpecMeta
  | [] => [x]
  | y :: ys => if y.timestamp ≤ x.timestamp then y :: insertByTs x ys else x :: y :: ys

/-- Python's stable ascending sort with `key=lambda x: x.get('timestamp', 0)`. -/
def sortByTimestamp (l : List SpecMeta) : List SpecMeta :=
  l.foldl (fun acc x => insertByTs x acc) []

/-- One (project, docType) partition of `list_specifications`: skip
non-JSON filenames, skip `*_todo.json` unless the directory is
`engineering_todo`, skip unreadable files, apply the `.get` defaults, and
sort by stored timestamp. -/
def listSpecFiles (projectDir docTypeDir : Str) (files : List (Str × Option RawSpec)) :
    List SpecMeta :=
  let metas := files.filterMap (fun e =>
    if !endsWithB jsonExt e.1 then none
    else if endsWithB todoJsonExt e.1 && decide (docTypeDir ≠ ("engineering_todo".toList)) then none
    else
      match e.2 with
      | none => none
      | some r => some
          { filename := e.1
            version := r.version.getD 1
            timestamp := r.timestamp.getD 0
            formattedTimestamp := r.formattedTimestamp.getD ("Unknown date".toList)
            productName := r.productName.getD (projectDir.map (fun c => if c = '_' then ' ' else c))
            docType := docTypeDir })
  sortByTimestamp metas

/-! ## Legacy migration (`SpecificationManager._handle_legacy_specifications`)

The filesystem is a list of (path, content) pairs, a path being its
components below `SPECS_DIR`; `content = none` models a file whose JSON fails
to load (or a directory erroneously listed as a file), which the migration
skips with a warning.  `check d` models
`d in ['product_requirements', 'engineering_todo'] or exists(PROMPT_DIR/d)`. -/

abbrev MPath := List Str

/-- The fields of a legacy record that the migration inspects; `payload`
stands for the rest of the JSON object, which is copied verbatim. -/
structure LegacyRec where
  productName : Option Str
  docType : Option Str
  payload : Nat
deriving DecidableEq

abbrev MigFS := List (MPath × Option LegacyRec)

def lookupM : MigFS → MPath → Option (Option LegacyRec)
  | [], _ => none
  | e :: es, p => if e.1 = p then some e.2 else lookupM es p

def setM : MigFS → MPath → Option LegacyRec → MigFS
  | [], p, v => [(p, v)]
  | e :: es, p, v => if e.1 = p then (p, v) :: es else e :: setM es p v

/-- A legacy file found by the scan: its path and, for files found under a
document-type directory of the old layout, the (doc_type, project directory)
pair recorded with it. -/
structure LegacyItem where
  path : MPath
  nested : Option (Str × Str)
deriving DecidableEq

/-- Whether one directory entry is picked up by the migration scan; depends
only on the path, not on the file's contents. -/
def scanLegacy (check : Str → Bool) (e : MPath × Option LegacyRec) : Option LegacyItem :=
  match e.1 with
  | [f] => if endsWithB jsonExt f then some ⟨e.1, none⟩ else none
  | [d, proj, f] =>
    if check d && endsWithB jsonExt f then some ⟨e.1, some (d, proj)⟩ else none
  | _ => none

/-- The scan phase: JSON files directly in `SPECS_DIR`, and JSON files two
levels below a directory recognised as a document type. -/
def legacyItems (check : Str → Bool) (fs : MigFS) : List LegacyItem :=
  fs.filterMap (scanLegacy check)

/-- The per-item computation of the migration loop: load the file, determine
`doc_type` (directory name, else `"_todo"`-marker heuristic, else the
record's own field, else the default), update the record's `doc_type`, infer
the project name, and compute the canonical destination
`[slug, doc_type, filename]`.  `none` models the `except` branch (skip). -/
def destOf (fs : MigFS) (it : LegacyItem) : Option (MPath × LegacyRec) :=
  match lookupM fs it.path with
  | none => none
  | some none => none
  | some (some r) =>
    let filename := it.path.getLastD []
    let docType :=
      match it.nested with
      | some (d, _) => d
      | none =>
        if containsSubB ("_todo".toList) filename then ("engineering_todo".toList)
        else r.docType.getD ("product_requirements".toList)
    let r' := { r with docType := some docType }
    let projectName :=
      let pn := r.productName.getD ("unknown".toList)
      match it.nested with
      | some (_, pdir) =>
        if pn = ("unknown".toList) then pdir.map (fun c => if c = '_' then ' ' else c) else pn
      | none => pn
    some ([pySlug projectName, docType, filename], r')

/-- One iteration of the migration loop: write the updated record to the
destination `if not os.path.exists(new_file_path) or file_path !=
new_file_path`, returning the updated filesystem and the write performed. -/
def migrateOne (fs : MigFS) (it : LegacyItem) : MigFS × List MPath :=
  match destOf fs it with
  | none => (fs, [])
  | some (d, r') =>
    if lookupM fs d = none ∨ it.path ≠ d then (setM fs d (some r'), [d])
    else (fs, [])

/-- The processing loop, threading the filesystem through the items and
collecting the writes. -/
def migrateGo : MigFS → List LegacyItem → MigFS × List MPath
  | fs, [] => (fs, [])
  | fs, it :: its =>
    let r := migrateOne fs it
    let rest := migrateGo r.1 its
    (rest.1, r.2 ++ rest.2)

/-- `SpecificationManager._handle_legacy_specifications`: collect the legacy
files first, then process them in order; returns the final filesystem and the
list of destination writes performed. -/
def migrate (check : Str → Bool) (fs : MigFS) : MigFS × List MPath :=
  migrateGo fs (legacyItems check fs)

/-! ## Derived definitions and concrete test inputs used by the theorems -/

/-- `ask` composed with `_get_model`: when binding fails, `ask` returns the
`ERROR:` string; otherwise the generated text. -/
def askViaGetModel {α : Type} (backend : Nat → Fetch α) (delay : ℚ) (maxRetries : Nat)
    (generate : α → Str) : Str :=
  askOutcome (getModelRun backend delay maxRetries).2.2 generate

/-- Occurrences of `t` in a schedule. -/
def countD (ds : List Str) (t : Str) : Nat := (ds.filter (fun d => d = t)).length

/-- `Config.CACHE_EXPIRY = 60 * 60 * 24 * 7`. -/
def cacheExpiryDefault : Int := 604800

def prDoc : Str := ("product_requirements".toList)

def etDoc : Str := ("engineering_todo".toList)

/-- Concrete store root for the worked examples. -/
def exSpecsDir : Str := ("specs".toList)

/-- A project name whose slug contains the substring `'_v'`. -/
def exBadProject : Str := ("a v5".toList)

/-- The schedule of three saves to the same partition. -/
def exSchedule : List Str := [prDoc, prDoc, prDoc]

/-- The version log of three successive saves of project `"a v5"` into one
initially empty partition. -/
def exBadRun : Option (FSStore × List (Str × Nat)) :=
  runSchedule exSpecsDir exBadProject (fun _ => ("body".toList)) (fun _ => 0)
    (fun _ => ("ts".toList)) exSchedule [] []

/-- A single JSON question object. -/
def qobjStr (s q : Str) : Str :=
  [lbrace] ++ ("\"section\":\"".toList) ++ s ++ ("\",\"question\":\"".toList) ++ q
    ++ ['"'] ++ [rbrace]

/-- A model reply that is a valid JSON array of four well-formed questions. -/
def c3Resp : Str :=
  ['['] ++ qobjStr ("a".toList) ("b".toList) ++ [','] ++ qobjStr ("c".toList) ("d".toList)
    ++ [','] ++ qobjStr ("e".toList) ("f".toList) ++ [','] ++ qobjStr ("g".toList) ("h".toList)
    ++ [']']

/-- A model reply that is not valid JSON but contains a question mark. -/
def c7Resp : Str := ("Scope:\nWhat should happen when X? more\nAnd also Y?".toList)

/-- The two-question batch of the `done`-sentinel scenario. -/
def c4Batch : List QItem := [⟨("s1".toList), ("q1?".toList)⟩, ⟨("s2".toList), ("q2?".toList)⟩]

/-- The scripted user answers: `done` to the first question, then `skip`. -/
def c4Answers : List Str := [("done".toList), ("skip".toList)]

def c4InitSpec : Str := ("spec0".toList)

def c4State0 : EngineState := ⟨c4InitSpec, [], [], 0⟩

/-- A `finalize_spec` stub that visibly changes the draft. -/
def c4Finalize (s : Str) : Str := s ++ ("!".toList)

/-- Two records of one partition: version 2 with the earlier timestamp,
version 1 with the later one. -/
def c8Files : List (Str × Option RawSpec) :=
  [ (("b_v2.json".toList), some ⟨some 2, some 100, none, none⟩)
  , (("b_v1.json".toList), some ⟨some 1, some 200, none, none⟩) ]

def c8Listing : List SpecMeta := listSpecFiles ("proj".toList) prDoc c8Files

/-- The document-type recogniser of the migration scan with an empty
`PROMPT_DIR`. -/
def exCheck (d : Str) : Bool := d = prDoc || d = etDoc

/-- A store holding one legacy file directly in `SPECS_DIR`. -/
def exMigFS : MigFS := [([("acme_v1.json".toList)], some ⟨some ("Acme".toList), none, 7⟩)]

/-- The canonical destination of that legacy file. -/
def exMigDest : MPath := [("acme".toList), prDoc, ("acme_v1.json".toList)]

/-- Cache key of the worked cache example. -/
def c10Key : Str := getCacheKey ("finalize_spec".toList) ("gemini-2.0-flash".toList) ("('S',)".toList)

/-- An `ERROR:`-prefixed `ask` result. -/
def c10Err : Str := ("ERROR: boom".toList)

def c10Spec : Str := ("S".toList)

/-- The path written by the example save of claim C2's witness. -/
def c2SavePath : SpecPath := ⟨("acme".toList), prDoc, ("acme_v1.json".toList)⟩

/-- The record written by the example save of claim C2's witness. -/
def c2SaveRec : SpecRecord :=
  ⟨1, 5, ("ts".toList), ("Acme".toList), ("body".toList), some prDoc⟩

/-! ## Theorems -/

theorem cacheLookup_set_self {α : Type} (cache : Cache α) (k : Str) (e : CacheEntry α) :
    cacheLookup (cacheSet cache k e) k = some e := by
  induction cache with
  | nil => simp [cacheSet, cacheLookup]
  | cons x xs ih => by_cases hx : x.1 = k <;> simp [cacheSet, cacheLookup, hx, ih]

theorem cachedAiCall_miss_then_hit {α : Type} (cache : Cache α) (now now2 expiry : Int)
    (k : Str) (method : Unit → α)
    (hmiss : getCachedResponse now expiry (cacheLookup cache k) = none)
    (hexp : now2 - now ≤ expiry) :
    cachedAiCall cache now expiry k method =
      (method (), cacheSet cache k ⟨now, some (method ())⟩, true) ∧
    ∀ method2 : Unit → α,
      cachedAiCall (cacheSet cache k ⟨now, some (method ())⟩) now2 expiry k method2 =
        (method (), cacheSet cache k ⟨now, some (method ())⟩, false) := by
  constructor
  · simp [cachedAiCall, hmiss]
  · intro m2
    have hl := cacheLookup_set_self cache k ⟨now, some (method ())⟩
    simp [cachedAiCall, getCachedResponse, hl, if_neg (show ¬ expiry < now2 - now by omega)]

/-- Claim C6: the cache read operation returns a miss when no entry exists,
when the entry's age exceeds the configured expiry, or when the entry cannot
be read or deserialized; it is a total function (no exception reaches the
caller), and it returns a hit exactly when a readable, unexpired entry
exists. -/
theorem c6_thm {α : Type} :
    (∀ now expiry : Int, getCachedResponse (α := α) now expiry none = none) ∧
    (∀ (now expiry : Int) (e : CacheEntry α), expiry < now - e.mtime →
      getCachedResponse now expiry (some e) = none) ∧
    (∀ (now expiry : Int) (e : CacheEntry α), e.payload = none →
      getCachedResponse now expiry (some e) = none) ∧
    (∀ (now expiry : Int) (entry : Option (CacheEntry α)) (v : α),
      getCachedResponse now expiry entry = some v ↔
        ∃ e, entry = some e ∧ now - e.mtime ≤ expiry ∧ e.payload = some v) := by
  refine ⟨fun _ _ => rfl, ?_, ?_, ?_⟩
  · intro now expiry e h
    simp [getCachedResponse, if_pos h]
  · intro now expiry e h
    by_cases hc : expiry < now - e.mtime <;> simp [getCachedResponse, hc, h]
  · intro now expiry entry v
    constructor
    · intro h
      match entry with
      | none => simp [getCachedResponse] at h
      | some e =>
        by_cases hc : expiry < now - e.mtime
        · simp [getCachedResponse, hc] at h
        · exact ⟨e, rfl, by omega, by simpa [getCachedResponse, hc] using h⟩
    · rintro ⟨e, rfl, h1, h2⟩
      simp [getCachedResponse, h2, if_neg (show ¬ expiry < now - e.mtime by omega)]

theorem c6_witness :
    getCachedResponse (α := Nat) 10 5 (some ⟨0, some 3⟩) = none ∧
    getCachedResponse (α := Nat) 3 5 (some ⟨0, none⟩) = none ∧
    getCachedResponse (α := Nat) 3 5 none = none ∧
    getCachedResponse (α := Nat) 3 5 (some ⟨0, some 3⟩) = some 3 :=
  ⟨c6_thm.2.1 10 5 ⟨0, some 3⟩ (by decide),
   c6_thm.2.2.1 3 5 ⟨0, none⟩ rfl,
   c6_thm.1 3 5,
   (c6_thm.2.2.2 3 5 (some ⟨0, some 3⟩) 3).mpr ⟨⟨0, some 3⟩, rfl, by decide, rfl⟩⟩

theorem getModelGo_connErr {α : Type} (backend : Nat → Fetch α) (delay : ℚ)
    (h : ∀ i, backend i = .connErr) :
    ∀ k a, getModelGo backend delay (k + 1) a =
      (k + 1, (List.range k).map (fun j => delay * 2 ^ (a + j)), none) := by
  intro k
  induction k with
  | zero => intro a; simp [getModelGo, h a]
  | succ k ih =>
    intro a
    have hne : (k + 1 : Nat) ≠ 0 := Nat.succ_ne_zero k
    have hlist : (List.range (k + 1)).map (fun j => delay * 2 ^ (a + j)) =
        delay * 2 ^ a :: (List.range k).map (fun j => delay * 2 ^ (a + 1 + j)) := by
      rw [List.range_succ_eq_map, List.map_cons, List.map_map]
      rw [Nat.add_zero]
      congr 1
      apply List.map_congr_left
      intro j _
      have hj : a + (j + 1) = a + 1 + j := by omega
      simp [Function.comp, hj]
    rw [getModelGo.eq_2, h a, if_neg hne, ih (a + 1), hlist]

/-- Claim C5: when every attempt to bind the model raises a transient
connection failure, exactly `maxRetries` attempts are made, with backoff
delays `delay * 2 ^ 0, delay * 2 ^ 1, ...` before the retries (so the first
delay is the base delay and each subsequent one doubles), and `ask` then
returns the `ERROR:` string rather than raising; any other exception causes a
single attempt, no delays, and the same `ERROR:` result. -/
theorem c5_thm :
    (∀ (α : Type) (backend : Nat → Fetch α) (delay : ℚ) (m : Nat) (generate : α → Str),
      1 ≤ m → (∀ i, backend i = .connErr) →
      getModelRun backend delay m =
        (m, (List.range (m - 1)).map (fun j => delay * 2 ^ j), none) ∧
      askViaGetModel backend delay m generate = errCouldNotAccess) ∧
    (∀ (α : Type) (backend : Nat → Fetch α) (delay : ℚ) (m : Nat) (generate : α → Str),
      1 ≤ m → backend 0 = .otherErr →
      getModelRun backend delay m = (1, [], none) ∧
      askViaGetModel backend delay m generate = errCouldNotAccess) := by
  constructor
  · intro α backend delay m generate hm h
    match m, hm with
    | k + 1, _ =>
      have hrun := getModelGo_connErr backend delay h k 0
      have hrun' : getModelRun backend delay (k + 1) =
          (k + 1, (List.range k).map (fun j => delay * 2 ^ j), none) := by
        rw [getModelRun, hrun]
        simp
      refine ⟨by simpa using hrun', ?_⟩
      rw [askViaGetModel, hrun']
      rfl
  · intro α backend delay m generate hm h
    match m, hm with
    | k + 1, _ =>
      have hrun : getModelRun backend delay (k + 1) = (1, [], none) := by
        rw [getModelRun, getModelGo.eq_2, h]
      exact ⟨hrun, by rw [askViaGetModel, hrun]; rfl⟩

theorem c5_witness :
    getModelRun (fun _ => (Fetch.connErr : Fetch Unit)) 2 3 = (3, [2, 4], none) ∧
    askViaGetModel (fun _ => (Fetch.connErr : Fetch Unit)) 2 3 (fun _ => []) = errCouldNotAccess ∧
    getModelRun (fun _ => (Fetch.otherErr : Fetch Unit)) 2 3 = (1, [], none) := by
  obtain ⟨h1, h2⟩ :=
    c5_thm.1 Unit (fun _ => .connErr) 2 3 (fun _ => []) (by decide) (fun _ => rfl)
  obtain ⟨h3, _⟩ := c5_thm.2 Unit (fun _ => .otherErr) 2 3 (fun _ => []) (by decide) rfl
  refine ⟨?_, h2, h3⟩
  rw [h1]
  norm_num [List.range_succ]

/-- Claim C10: every value returned by a cacheable operation is written to the
cache, including error-fallback values — `finalize_spec` returns the input
spec on an `ERROR:` result, `get_follow_up_questions` returns `[]`, and
`generate_initial_spec` returns the placeholder after a declined retry — and
a subsequent call with the same key within the expiry window returns that
degraded value from the cache without invoking the wrapped method. -/
theorem c10_thm :
    (∀ (cache : Cache Str) (now now2 expiry : Int) (k askResult spec : Str),
      startsWithB errMark askResult = true →
      getCachedResponse now expiry (cacheLookup cache k) = none →
      now2 - now ≤ expiry →
      cachedAiCall cache now expiry k (fun _ => finalizeSpecBody askResult spec) =
        (spec, cacheSet cache k ⟨now, some spec⟩, true) ∧
      ∀ method2, cachedAiCall (cacheSet cache k ⟨now, some spec⟩) now2 expiry k method2 =
        (spec, cacheSet cache k ⟨now, some spec⟩, false)) ∧
    (∀ (cache : Cache (List JVal)) (now now2 expiry : Int) (k askResult : Str),
      startsWithB errMark askResult = true →
      getCachedResponse now expiry (cacheLookup cache k) = none →
      now2 - now ≤ expiry →
      cachedAiCall cache now expiry k (fun _ => getFollowUpQuestionsResp askResult) =
        ([], cacheSet cache k ⟨now, some []⟩, true) ∧
      ∀ method2, cachedAiCall (cacheSet cache k ⟨now, some []⟩) now2 expiry k method2 =
        ([], cacheSet cache k ⟨now, some []⟩, false)) ∧
    (∀ (cache : Cache Str) (now now2 expiry : Int) (k askResult retryResult : Str),
      startsWithB errMark askResult = true →
      getCachedResponse now expiry (cacheLookup cache k) = none →
      now2 - now ≤ expiry →
      cachedAiCall cache now expiry k
          (fun _ => generateInitialSpecBody askResult false retryResult) =
        (initialSpecPlaceholder, cacheSet cache k ⟨now, some initialSpecPlaceholder⟩, true) ∧
      ∀ method2,
        cachedAiCall (cacheSet cache k ⟨now, some initialSpecPlaceholder⟩) now2 expiry k method2 =
          (initialSpecPlaceholder, cacheSet cache k ⟨now, some initialSpecPlaceholder⟩, false)) := by
  refine ⟨?_, ?_, ?_⟩
  · intro cache now now2 expiry k askResult spec herr hmiss hexp
    have hb : finalizeSpecBody askResult spec = spec := by
      simp [finalizeSpecBody, herr]
    have := cachedAiCall_miss_then_hit cache now now2 expiry k
      (fun _ => finalizeSpecBody askResult spec) hmiss hexp
    simpa only [hb] using this
  · intro cache now now2 expiry k askResult herr hmiss hexp
    have hb : getFollowUpQuestionsResp askResult = [] := by
      simp [getFollowUpQuestionsResp, herr]
    have := cachedAiCall_miss_then_hit cache now now2 expiry k
      (fun _ => getFollowUpQuestionsResp askResult) hmiss hexp
    simpa only [hb] using this
  · intro cache now now2 expiry k askResult retryResult herr hmiss hexp
    have hb : generateInitialSpecBody askResult false retryResult = initialSpecPlaceholder := by
      simp [generateInitialSpecBody, herr]
    have := cachedAiCall_miss_then_hit cache now now2 expiry k
      (fun _ => generateInitialSpecBody askResult false retryResult) hmiss hexp
    simpa only [hb] using this

theorem c10_witness :
    cachedAiCall ([] : Cache Str) 0 cacheExpiryDefault c10Key
        (fun _ => finalizeSpecBody c10Err c10Spec) =
      (c10Spec, cacheSet [] c10Key ⟨0, some c10Spec⟩, true) ∧
    cachedAiCall (cacheSet ([] : Cache Str) c10Key ⟨0, some c10Spec⟩) 100 cacheExpiryDefault
        c10Key (fun _ => ("other".toList)) =
      (c10Spec, cacheSet [] c10Key ⟨0, some c10Spec⟩, false) := by
  obtain ⟨h1, h2⟩ := c10_thm.1 [] 0 100 cacheExpiryDefault c10Key c10Err c10Spec
    (by decide) rfl (by decide)
  exact ⟨h1, h2 _⟩

/-- Claim C3 (amended): `get_follow_up_questions` returns at most one question
when structured parsing fails (heuristic fallback) and none on an `ERROR:`
result, but the JSON path imposes no cap: the question list is bounded only by
the length of the parsed JSON array, so a valid-JSON reply can produce more
than 3 questions. -/
theorem c3_thm (response : Str) :
    (getFollowUpQuestionsResp response).length ≤ max 1 (jarrLen (jsonLoads response)) := by
  rw [getFollowUpQuestionsResp]
  by_cases h : startsWithB errMark response = true
  · simp [h]
  · rw [if_neg h]
    cases hj : jsonLoads response with
    | none =>
      refine le_trans ?_ (le_max_left 1 _)
      rw [extractQuestionsFromText]
      exact List.length_take_le 1 _
    | some v =>
      cases v with
      | jarr items =>
        refine le_trans (List.length_filter_le _ _) (le_trans ?_ (le_max_right 1 _))
        simp [jarrLen, hj]
      | jstr s => simp
      | jint n => simp
      | jbool b => simp
      | jnull => simp
      | jobj fields => simp

/-- The claim "at most 3 questions per call" fails: `c3Resp` is a valid JSON
array of four well-formed questions and all four are returned. -/
theorem c3_counterexample : ¬ ((getFollowUpQuestionsResp c3Resp).length ≤ 3) := by
  have h : (getFollowUpQuestionsResp c3Resp).length = 4 := by rfl
  omega

/-- Claim C7: a model reply that is not valid JSON never raises; the result is
the heuristic fallback extraction (when the reply is not an `ERROR:` result)
and contains at most one question. -/
theorem c7_thm (response : Str) (hj : jsonLoads response = none) :
    (getFollowUpQuestionsResp response).length ≤ 1 ∧
    (startsWithB errMark response = false →
      getFollowUpQuestionsResp response = extractQuestionsFromText response) := by
  constructor
  · rw [getFollowUpQuestionsResp]
    by_cases h : startsWithB errMark response = true
    · simp [h]
    · rw [if_neg h, hj, extractQuestionsFromText]
      exact List.length_take_le 1 _
  · intro h
    rw [getFollowUpQuestionsResp, if_neg (by simp [h]), hj]

theorem c7_witness :
    jsonLoads c7Resp = none ∧ startsWithB errMark c7Resp = false ∧
    getFollowUpQuestionsResp c7Resp = extractQuestionsFromText c7Resp ∧
    (getFollowUpQuestionsResp c7Resp).length ≤ 1 :=
  ⟨rfl, rfl, (c7_thm c7Resp rfl).2 rfl, (c7_thm c7Resp rfl).1⟩

/-- Claim C8 fails on the code: `list_specifications` sorts each partition by
the stored `timestamp` only (despite the comment "Sort by version number"), so
a partition whose version order disagrees with its timestamp order is listed
with descending versions. -/
theorem c8_thm :
    c8Listing.map (fun m => m.version) = [2, 1] ∧
    ¬ (c8Listing.map (fun m => m.version)).Pairwise (· ≤ ·) := by
  have h : c8Listing.map (fun m => m.version) = [2, 1] := by rfl
  refine ⟨h, ?_⟩
  rw [h]
  decide

/-- Claim C4 fails on the code: with a batch of two questions and the user
answering `done` to the first, the loop still presents the second question
(`questions = []` rebinds the name without stopping the running `for` loop);
`finalize_spec` is nevertheless never invoked and the draft is returned as
accumulated. -/
theorem c4_thm :
    refineLoop c4Finalize [c4Batch] c4Answers c4State0 =
      some ⟨c4InitSpec, [], [("q1?".toList), ("q2?".toList)], 0⟩ := by
  rfl

/-- Claim C9's idempotence clause fails on the code: after a first migration
run has created the canonical destination, a second run does not skip the
copy — the condition `not exists(dest) or src != dest` is true whenever the
source and destination differ — and writes the destination again. -/
theorem c9_counterexample :
    lookupM (migrate exCheck exMigFS).1 exMigDest ≠ none ∧
    (migrate exCheck (migrate exCheck exMigFS).1).2 = [exMigDest] := by
  constructor
  · decide
  · decide

theorem splitChar_ne_nil (sep : Char) (s : Str) : splitChar sep s ≠ [] := by
  cases s with
  | nil => simp [splitChar]
  | cons c rest => by_cases h : c = sep <;> simp [splitChar, h]

theorem splitV_ne_nil : ∀ s : Str, splitV s ≠ []
  | [] => by simp [splitV]
  | [c] => by simp [splitV]
  | c₁ :: c₂ :: rest => by by_cases h : c₁ = '_' ∧ c₂ = 'v' <;> simp [splitV, h]

theorem splitV_cons_length (c₁ c₂ : Char) (rest : Str) (h : ¬ (c₁ = '_' ∧ c₂ = 'v')) :
    (splitV (c₁ :: c₂ :: rest)).length = (splitV (c₂ :: rest)).length := by
  obtain ⟨x, xs, hx⟩ := List.exists_cons_of_ne_nil (splitV_ne_nil (c₂ :: rest))
  simp [splitV, h, hx]

theorem hasV_cons_false {c : Char} {s : Str} (h : hasV (c :: s) = false) : hasV s = false := by
  cases s with
  | nil => simp [hasV, splitV]
  | cons d s' =>
    by_cases hp : c = '_' ∧ d = 'v'
    · exfalso
      rw [hasV, decide_eq_false_iff_not, not_lt] at h
      obtain ⟨hc, hd⟩ := hp
      subst hc hd
      have hlen : (splitV ('_' :: 'v' :: s')).length = (splitV s').length + 1 := by
        simp [splitV]
      have hpos : 0 < (splitV s').length := List.length_pos.mpr (splitV_ne_nil s')
      omega
    · rw [hasV, decide_eq_false_iff_not, not_lt] at h ⊢
      rwa [splitV_cons_length c d s' hp] at h

theorem splitV_no_underscore : ∀ s : Str, (∀ c ∈ s, c ≠ '_') → splitV s = [s]
  | [], _ => by simp [splitV]
  | [c], _ => by simp [splitV]
  | c₁ :: c₂ :: rest, h => by
    have h1 : c₁ ≠ '_' := h c₁ (by simp)
    have hrec := splitV_no_underscore (c₂ :: rest) (fun c hc => h c (by simp [hc]))
    have hcn : ¬ (c₁ = '_' ∧ c₂ = 'v') := fun hh => h1 hh.1
    rw [splitV.eq_3, if_neg hcn, hrec]
    simp

theorem splitChar_no_sep : ∀ (sep : Char) (s : Str), (∀ c ∈ s, c ≠ sep) → splitChar sep s = [s]
  | _, [], _ => by simp [splitChar]
  | sep, c :: rest, h => by
    have h1 : c ≠ sep := h c (by simp)
    have hrec := splitChar_no_sep sep rest (fun d hd => h d (by simp [hd]))
    simp [splitChar, h1, hrec]

theorem splitChar_append_sep : ∀ (sep : Char) (x y : Str), (∀ c ∈ x, c ≠ sep) →
    splitChar sep (x ++ sep :: y) = x :: splitChar sep y
  | sep, [], y, _ => by simp [splitChar]
  | sep, c :: x', y, h => by
    have h1 : c ≠ sep := h c (by simp)
    have hrec := splitChar_append_sep sep x' y (fun d hd => h d (by simp [hd]))
    rw [List.cons_append, splitChar.eq_2, if_neg h1, hrec]
    simp

theorem splitV_append_sep : ∀ (x y : Str), hasV x = false →
    splitV (x ++ '_' :: 'v' :: y) = x :: splitV y
  | [], y, _ => by simp [splitV]
  | [a], y, _ => by
    have hne : ¬ (a = '_' ∧ '_' = 'v') := by simp
    have hy : splitV ('_' :: 'v' :: y) = [] :: splitV y := by simp [splitV]
    simp [splitV, hne, hy]
  | a :: b :: x', y, h => by
    have hab : ¬ (a = '_' ∧ b = 'v') := by
      rintro ⟨ha, hb⟩
      subst ha hb
      rw [hasV, decide_eq_false_iff_not, not_lt] at h
      have hlen : (splitV ('_' :: 'v' :: x')).length = (splitV x').length + 1 := by
        simp [splitV]
      have hpos : 0 < (splitV x').length := List.length_pos.mpr (splitV_ne_nil x')
      omega
    have hx' : hasV (b :: x') = false := hasV_cons_false h
    have hrec := splitV_append_sep (b :: x') y hx'
    have harg : (a :: b :: x') ++ '_' :: 'v' :: y = a :: b :: (x' ++ '_' :: 'v' :: y) := by simp
    rw [harg, splitV.eq_3, if_neg hab]
    rw [show b :: (x' ++ '_' :: 'v' :: y) = (b :: x') ++ '_' :: 'v' :: y from rfl, hrec]
    simp

theorem splitV_sep_length : ∀ (x y : Str), 1 < (splitV (x ++ '_' :: 'v' :: y)).length
  | [], y => by
    have hpos : 0 < (splitV y).length := List.length_pos.mpr (splitV_ne_nil y)
    have hy : splitV ('_' :: 'v' :: y) = [] :: splitV y := by simp [splitV]
    simp [hy]
    omega
  | [a], y => by
    have hne : ¬ (a = '_' ∧ '_' = 'v') := by simp
    have hy : splitV ('_' :: 'v' :: y) = [] :: splitV y := by simp [splitV]
    have hpos : 0 < (splitV y).length := List.length_pos.mpr (splitV_ne_nil y)
    simp [splitV, hne, hy]
    omega
  | a :: b :: x', y => by
    by_cases hab : a = '_' ∧ b = 'v'
    · obtain ⟨ha, hb⟩ := hab
      subst ha hb
      have hpos : 0 < (splitV (x' ++ '_' :: 'v' :: y)).length :=
        List.length_pos.mpr (splitV_ne_nil _)
      have harg : ('_' :: 'v' :: x') ++ '_' :: 'v' :: y =
          '_' :: 'v' :: (x' ++ '_' :: 'v' :: y) := by simp
      rw [harg, splitV.eq_3, if_pos ⟨rfl, rfl⟩]
      simp
      omega
    · have hrec := splitV_sep_length (b :: x') y
      have harg : (a :: b :: x') ++ '_' :: 'v' :: y =
          a :: b :: (x' ++ '_' :: 'v' :: y) := by simp
      rw [harg]
      rw [splitV_cons_length a b _ hab]
      exact hrec

theorem getLastD_irrel {α : Type} : ∀ (l : List α) (d₁ d₂ : α), l ≠ [] →
    l.getLastD d₁ = l.getLastD d₂
  | [], _, _, h => absurd rfl h
  | a :: l, d₁, d₂, _ => by rw [List.getLastD_cons, List.getLastD_cons]

theorem splitV_sep_getLastD : ∀ (x y : Str), (∀ c ∈ y, c ≠ '_') →
    (splitV (x ++ '_' :: 'v' :: y)).getLastD [] = y
  | [], y, hy => by
    rw [List.nil_append, show splitV ('_' :: 'v' :: y) = [] :: splitV y by simp [splitV],
       splitV_no_underscore y hy]
    simp
  | [a], y, hy => by
    have hne : ¬ (a = '_' ∧ '_' = 'v') := by simp
    have hy' : splitV ('_' :: 'v' :: y) = [] :: splitV y := by simp [splitV]
    rw [show [a] ++ '_' :: 'v' :: y = a :: '_' :: 'v' :: y from rfl, splitV.eq_3, if_neg hne,
       hy', splitV_no_underscore y hy]
    simp
  | a :: b :: x', y, hy => by
    by_cases hab : a = '_' ∧ b = 'v'
    · obtain ⟨ha, hb⟩ := hab
      subst ha hb
      have hrec := splitV_sep_getLastD x' y hy
      have harg : ('_' :: 'v' :: x') ++ '_' :: 'v' :: y =
          '_' :: 'v' :: (x' ++ '_' :: 'v' :: y) := by simp
      rw [harg, splitV.eq_3, if_pos ⟨rfl, rfl⟩, List.getLastD_cons]
      rw [getLastD_irrel _ _ [] (splitV_ne_nil _)]
      exact hrec
    · have hrec := splitV_sep_getLastD (b :: x') y hy
      have hlen := splitV_sep_length (b :: x') y
      obtain ⟨g, gs, hg⟩ := List.exists_cons_of_ne_nil (splitV_ne_nil ((b :: x') ++ '_' :: 'v' :: y))
      have hgs : gs ≠ [] := by
        intro hnil
        rw [hg, hnil] at hlen
        simp at hlen
      have harg : (a :: b :: x') ++ '_' :: 'v' :: y =
          a :: ((b :: x') ++ '_' :: 'v' :: y) := by simp
      rw [harg, show a :: ((b :: x') ++ '_' :: 'v' :: y) =
        a :: b :: (x' ++ '_' :: 'v' :: y) by simp]
      rw [splitV.eq_3, if_neg hab]
      rw [show b :: (x' ++ '_' :: 'v' :: y) = (b :: x') ++ '_' :: 'v' :: y from rfl, hg]
      simp only [List.headD_cons, List.tail_cons, List.getLastD_cons]
      rw [hg, List.getLastD_cons] at hrec
      rw [getLastD_irrel gs (a :: g) g hgs]
      exact hrec

theorem natCharsGo_zero : ∀ fuel : Nat, natCharsGo fuel 0 = []
  | 0 => rfl
  | _ + 1 => by simp [natCharsGo]

theorem natCharsGo_eq_digits : ∀ (fuel n : Nat), n ≤ fuel → n ≠ 0 →
    natCharsGo fuel n = (Nat.digits 10 n).reverse.map digitChar
  | 0, n, hle, hn => absurd (Nat.le_zero.mp hle) hn
  | fuel + 1, n, hle, hn => by
    rw [natCharsGo, if_neg hn]
    rw [Nat.digits_def' (by norm_num : (1 : Nat) < 10) (Nat.pos_of_ne_zero hn)]
    rw [List.reverse_cons, List.map_append]
    by_cases h10 : n / 10 = 0
    · rw [h10, natCharsGo_zero]
      simp
    · rw [natCharsGo_eq_digits fuel (n / 10)
        (by
          have := Nat.div_lt_self (Nat.pos_of_ne_zero hn) (by norm_num : (1 : Nat) < 10)
          omega)
        h10]
      rfl

theorem natChars_eq_digits (n : Nat) (hn : n ≠ 0) :
    natChars n = (Nat.digits 10 n).reverse.map digitChar := by
  rw [natChars, if_neg hn, natCharsGo_eq_digits n n le_rfl hn]

theorem natChars_ne_nil (n : Nat) : natChars n ≠ [] := by
  by_cases hn : n = 0
  · subst hn
    decide
  · rw [natChars_eq_digits n hn]
    simp
    exact Nat.digits_ne_nil_iff_ne_zero.mpr hn

theorem digitChar_props {d : Nat} (h : d < 10) :
    (digitChar d).isDigit = true ∧ digitChar d ≠ '_' ∧ digitChar d ≠ '.' ∧
      digitChar d ≠ 'o' ∧ digitChar d ≠ 'v' := by
  interval_cases d <;> exact ⟨rfl, by decide, by decide, by decide, by decide⟩

theorem natChars_mem (n : Nat) : ∀ c ∈ natChars n, c.isDigit = true ∧ c ≠ '_' ∧ c ≠ '.' ∧
    c ≠ 'o' ∧ c ≠ 'v' := by
  intro c hc
  by_cases hn : n = 0
  · subst hn
    simp [natChars] at hc
    subst hc
    exact ⟨rfl, by decide, by decide, by decide, by decide⟩
  · rw [natChars_eq_digits n hn] at hc
    obtain ⟨d, hdm, rfl⟩ := List.mem_map.mp hc
    exact digitChar_props (Nat.digits_lt_base (by norm_num) (List.mem_reverse.mp hdm))

theorem digitChar_toNat {d : Nat} (h : d < 10) : (digitChar d).toNat = 48 + d := by
  interval_cases d <;> rfl

theorem foldl_digitChars : ∀ L : List Nat, (∀ d ∈ L, d < 10) →
    ((L.reverse.map digitChar).foldl (fun a c => 10 * a + (c.toNat - 48)) 0) = Nat.ofDigits 10 L
  | [], _ => by simp [Nat.ofDigits]
  | d :: L', h => by
    rw [List.reverse_cons, List.map_append, List.foldl_append]
    rw [foldl_digitChars L' (fun e he => h e (by simp [he]))]
    have hd : (digitChar d).toNat = 48 + d := digitChar_toNat (h d (by simp))
    simp [Nat.ofDigits_cons, hd]
    omega

theorem pyNatParse_natChars (n : Nat) : pyNatParse (natChars n) = some n := by
  by_cases h0 : n = 0
  · subst h0
    decide
  · rw [natChars_eq_digits n h0, pyNatParse]
    have hd : ∀ d ∈ Nat.digits 10 n, d < 10 := fun d hdm => Nat.digits_lt_base (by norm_num) hdm
    have hall : ((Nat.digits 10 n).reverse.map digitChar).all Char.isDigit = true := by
      rw [List.all_eq_true]
      intro c hc
      obtain ⟨d, hdm, rfl⟩ := List.mem_map.mp hc
      exact (digitChar_props (hd d (List.mem_reverse.mp hdm))).1
    have hne : ((Nat.digits 10 n).reverse.map digitChar).isEmpty = false := by
      have : Nat.digits 10 n ≠ [] := Nat.digits_ne_nil_iff_ne_zero.mpr h0
      simp [List.isEmpty_iff, this]
    rw [hne, hall]
    simp only [Bool.not_false, Bool.and_self, if_true]
    rw [foldl_digitChars _ hd, Nat.ofDigits_digits]

theorem prefB_append_self : ∀ p t : Str, prefB p (p ++ t) = true
  | [], _ => rfl
  | c :: p', t => by simp [prefB, prefB_append_self p' t]

theorem prefB_append_cancel : ∀ c p s : Str, prefB (c ++ p) (c ++ s) = prefB p s
  | [], _, _ => rfl
  | a :: c', p, s => by simp [prefB, prefB_append_cancel c' p s]

theorem endsWithB_append_self (t x : Str) : endsWithB t (x ++ t) = true := by
  rw [endsWithB, List.reverse_append, prefB_append_self]

theorem mkFilename_json (slug : Str) (v : Nat) : endsWithB jsonExt (mkFilename slug v) = true := by
  have h : mkFilename slug v = (slug ++ '_' :: 'v' :: natChars v) ++ jsonExt := by
    simp [mkFilename]
  rw [h, endsWithB_append_self]

theorem mkFilename_not_todo (slug : Str) (v : Nat) :
    endsWithB todoJsonExt (mkFilename slug v) = false := by
  rw [endsWithB]
  have hm : (mkFilename slug v).reverse =
      jsonExt.reverse ++ ((natChars v).reverse ++ ('v' :: '_' :: slug.reverse)) := by
    simp [mkFilename]
  have ht : todoJsonExt.reverse = jsonExt.reverse ++ ['o', 'd', 'o', 't', '_'] := by decide
  rw [hm, ht, prefB_append_cancel]
  obtain ⟨d, tl, hd⟩ := List.exists_cons_of_ne_nil
    (show (natChars v).reverse ≠ [] by simp [natChars_ne_nil v])
  have hdm : d ∈ natChars v := by
    rw [← List.mem_reverse, hd]
    simp
  have hno : d ≠ 'o' := (natChars_mem v d hdm).2.2.2.1
  rw [hd]
  simp [prefB]
  intro he
  exact absurd he.symm hno

theorem natChars_json_no_underscore (v : Nat) : ∀ c ∈ natChars v ++ jsonExt, c ≠ '_' := by
  intro c hc
  rcases List.mem_append.mp hc with h1 | h2
  · exact (natChars_mem v c h1).2.1
  · have h3 : c ∈ ['.', 'j', 's', 'o', 'n'] := h2
    fin_cases h3 <;> decide

theorem splitV_mkFilename (slug : Str) (v : Nat) (h : hasV slug = false) :
    splitV (mkFilename slug v) = [slug, natChars v ++ jsonExt] := by
  rw [show mkFilename slug v = slug ++ '_' :: 'v' :: (natChars v ++ jsonExt) from rfl,
     splitV_append_sep slug _ h, splitV_no_underscore _ (natChars_json_no_underscore v)]

theorem splitChar_dot_version (v : Nat) :
    (splitChar '.' (natChars v ++ jsonExt)).headD [] = natChars v := by
  rw [show natChars v ++ jsonExt = natChars v ++ '.' :: ['j', 's', 'o', 'n'] from rfl,
     splitChar_append_sep '.' (natChars v) _ (fun c hc => (natChars_mem v c hc).2.2.1)]
  rfl

theorem parseFirst_mkFilename (slug : Str) (v : Nat) (h : hasV slug = false) :
    pyNatParse ((splitChar '.' ((splitV (mkFilename slug v)).getD 1 [])).headD []) = some v := by
  rw [splitV_mkFilename slug v h]
  rw [show ([slug, natChars v ++ jsonExt].getD 1 []) = natChars v ++ jsonExt from rfl]
  rw [splitChar_dot_version, pyNatParse_natChars]

theorem hasV_mkFilename (slug : Str) (v : Nat) : hasV (mkFilename slug v) = true := by
  rw [hasV, decide_eq_true_iff]
  rw [show mkFilename slug v = slug ++ '_' :: 'v' :: (natChars v ++ jsonExt) from rfl]
  exact splitV_sep_length slug _

theorem recordedVersion_mk (specsDir slug dt : Str) (v : Nat) :
    recordedVersion (pathStr specsDir ⟨slug, dt, mkFilename slug v⟩) = some v := by
  have hpath : pathStr specsDir ⟨slug, dt, mkFilename slug v⟩ =
      (specsDir ++ '/' :: (slug ++ '/' :: (dt ++ '/' :: slug))) ++
        '_' :: 'v' :: (natChars v ++ jsonExt) := by
    simp [pathStr, mkFilename]
  rw [recordedVersion, hpath,
     splitV_sep_getLastD _ _ (natChars_json_no_underscore v),
     splitChar_dot_version, pyNatParse_natChars]

theorem mkFilename_inj_version (slug : Str) (h : hasV slug = false) {v w : Nat}
    (he : mkFilename slug v = mkFilename slug w) : v = w := by
  have h1 := parseFirst_mkFilename slug v h
  rw [he, parseFirst_mkFilename slug w h] at h1
  exact (Option.some.inj h1).symm

theorem foldl_max_range' : ∀ (k a : Nat), (List.range' 1 k).foldl max a = max a k
  | 0, a => by simp
  | k + 1, a => by
    rw [List.range'_concat, List.foldl_append, foldl_max_range' k a]
    simp
    omega

theorem nextVersion_versionList (slug : Str) (h : hasV slug = false) (k : Nat) :
    nextVersion ((List.range' 1 k).map (mkFilename slug)) = some (k + 1) := by
  cases k with
  | zero => rfl
  | succ k' =>
    simp only [nextVersion]
    have hfil : ((List.range' 1 (k' + 1)).map (mkFilename slug)).filter
        (fun f => endsWithB jsonExt f && !endsWithB todoJsonExt f) =
        (List.range' 1 (k' + 1)).map (mkFilename slug) := by
      refine List.filter_eq_self.mpr ?_
      intro f hf
      obtain ⟨v, _, rfl⟩ := List.mem_map.mp hf
      rw [mkFilename_json, mkFilename_not_todo]
      rfl
    have hne : ((List.range' 1 (k' + 1)).map (mkFilename slug)).isEmpty = false := by
      simp [List.isEmpty_iff, List.range'_succ 1 k' 1]
    have hv : ((List.range' 1 (k' + 1)).map (mkFilename slug)).filter hasV =
        (List.range' 1 (k' + 1)).map (mkFilename slug) := by
      refine List.filter_eq_self.mpr ?_
      intro f hf
      obtain ⟨v, _, rfl⟩ := List.mem_map.mp hf
      exact hasV_mkFilename slug v
    have hparse : ((List.range' 1 (k' + 1)).map (mkFilename slug)).map
        (fun f => pyNatParse ((splitChar '.' ((splitV f).getD 1 [])).headD [])) =
        (List.range' 1 (k' + 1)).map some := by
      rw [List.map_map]
      exact List.map_congr_left (fun v _ => parseFirst_mkFilename slug v h)
    have hany : ((List.range' 1 (k' + 1)).map some).any (fun o => o.isNone) = false := by
      rw [List.any_eq_false]
      intro o ho
      obtain ⟨v, _, rfl⟩ := List.mem_map.mp ho
      simp
    have hfm : ((List.range' 1 (k' + 1)).map some).filterMap id = List.range' 1 (k' + 1) := by
      simp
    have hemp : (List.range' 1 (k' + 1)).isEmpty = false := by
      simp [List.range'_succ 1 k' 1]
    rw [hfil, hne]
    simp only [Bool.false_eq_true, if_false]
    rw [hv, hparse, hany]
    simp only [Bool.false_eq_true, if_false]
    rw [hfm, hemp]
    simp only [Bool.false_eq_true, if_false]
    rw [foldl_max_range' (k' + 1) 0]
    simp

theorem partitionFiles_cons (e : SpecPath × SpecRecord) (es : FSStore) (slug dt : Str) :
    partitionFiles (e :: es) slug dt =
      if e.1.slug = slug ∧ e.1.docType = dt then e.1.filename :: partitionFiles es slug dt
      else partitionFiles es slug dt := by
  by_cases h : e.1.slug = slug ∧ e.1.docType = dt <;>
    simp [partitionFiles, List.filter_cons, h]

theorem lookupFS_mem_partition : ∀ (st : FSStore) (p : SpecPath) (r : SpecRecord),
    lookupFS st p = some r → p.filename ∈ partitionFiles st p.slug p.docType
  | [], p, r, h => by simp [lookupFS] at h
  | e :: es, p, r, h => by
    rw [partitionFiles_cons]
    by_cases he : e.1 = p
    · rw [he]
      simp
    · rw [lookupFS, if_neg he] at h
      have := lookupFS_mem_partition es p r h
      split
      · exact List.mem_cons_of_mem _ this
      · exact this

theorem lookupFS_none_of_not_mem (st : FSStore) (p : SpecPath)
    (h : p.filename ∉ partitionFiles st p.slug p.docType) : lookupFS st p = none := by
  cases hl : lookupFS st p with
  | none => rfl
  | some r => exact absurd (lookupFS_mem_partition st p r hl) h

theorem writeFS_not_found : ∀ (st : FSStore) (p : SpecPath) (r : SpecRecord),
    lookupFS st p = none → writeFS st p r = st ++ [(p, r)]
  | [], _, _, _ => rfl
  | e :: es, p, r, h => by
    rw [lookupFS] at h
    by_cases he : e.1 = p
    · rw [if_pos he] at h
      exact absurd h (by simp)
    · rw [if_neg he] at h
      rw [writeFS, if_neg he, writeFS_not_found es p r h]
      rfl

theorem lookupFS_writeFS_self : ∀ (st : FSStore) (p : SpecPath) (r : SpecRecord),
    lookupFS (writeFS st p r) p = some r
  | [], p, r => by simp [writeFS, lookupFS]
  | e :: es, p, r => by
    by_cases he : e.1 = p
    · rw [writeFS, if_pos he, lookupFS, if_pos rfl]
    · rw [writeFS, if_neg he, lookupFS, if_neg he, lookupFS_writeFS_self es p r]

theorem partitionFiles_append (st1 st2 : FSStore) (slug dt : Str) :
    partitionFiles (st1 ++ st2) slug dt =
      partitionFiles st1 slug dt ++ partitionFiles st2 slug dt := by
  simp [partitionFiles, List.filter_append]

theorem partitionFiles_write_fresh (st : FSStore) (p : SpecPath) (r : SpecRecord)
    (h : lookupFS st p = none) (slug dt : Str) :
    partitionFiles (writeFS st p r) slug dt =
      partitionFiles st slug dt ++
        (if p.slug = slug ∧ p.docType = dt then [p.filename] else []) := by
  rw [writeFS_not_found st p r h, partitionFiles_append]
  by_cases hc : p.slug = slug ∧ p.docType = dt <;>
    simp [partitionFiles, List.filter_cons, hc]

theorem logVersions_append (log : List (Str × Nat)) (e : Str × Nat) (t : Str) :
    logVersions (log ++ [e]) t =
      logVersions log t ++ (if e.1 = t then [e.2] else []) := by
  by_cases h : e.1 = t <;> simp [logVersions, List.filter_append, List.filter_cons, h]

theorem countD_cons (dt t : Str) (ds : List Str) :
    countD (dt :: ds) t = (if dt = t then 1 else 0) + countD ds t := by
  by_cases h : dt = t <;> simp [countD, List.filter_cons, h, Nat.add_comm]

theorem saveSpecification_step (specsDir : Str) (st : FSStore) (pName c dt : Str)
    (now : Int) (fmt : Str) (k : Nat)
    (hslug : hasV (pySlug pName) = false)
    (hpart : partitionFiles st (pySlug pName) dt =
      (List.range' 1 k).map (mkFilename (pySlug pName))) :
    saveSpecification specsDir st pName c dt now fmt =
      some (⟨pySlug pName, dt, mkFilename (pySlug pName) (k + 1)⟩,
            ⟨k + 1, now, fmt, pName, c, some dt⟩,
            writeFS st ⟨pySlug pName, dt, mkFilename (pySlug pName) (k + 1)⟩
              ⟨k + 1, now, fmt, pName, c, some dt⟩) := by
  simp only [saveSpecification]
  rw [hpart, nextVersion_versionList _ hslug k]
  simp only [recordedVersion_mk]

theorem runSchedule_go (specsDir pName : Str) (content : Nat → Str) (now : Nat → Int)
    (fmt : Nat → Str) (hslug : hasV (pySlug pName) = false) :
    ∀ (ds : List Str) (st : FSStore) (log : List (Str × Nat)) (k : Str → Nat),
    (∀ t, partitionFiles st (pySlug pName) t =
      (List.range' 1 (k t)).map (mkFilename (pySlug pName))) →
    (∀ t, logVersions log t = List.range' 1 (k t)) →
    ∃ st' log', runSchedule specsDir pName content now fmt ds st log = some (st', log') ∧
      ∀ t, logVersions log' t = List.range' 1 (k t + countD ds t) := by
  intro ds
  induction ds with
  | nil =>
    intro st log k hpart hlog
    exact ⟨st, log, rfl, fun t => by simpa [countD] using hlog t⟩
  | cons dt ds ih =>
    intro st log k hpart hlog
    have hsave := saveSpecification_step specsDir st pName (content log.length) dt
      (now log.length) (fmt log.length) (k dt) hslug (hpart dt)
    have hnotmem : mkFilename (pySlug pName) (k dt + 1) ∉
        partitionFiles st (pySlug pName) dt := by
      rw [hpart dt]
      intro hmem
      obtain ⟨j, hj, hje⟩ := List.mem_map.mp hmem
      have hj2 := List.mem_range'_1.mp hj
      have := mkFilename_inj_version _ hslug hje
      omega
    have hfresh : lookupFS st
        ⟨pySlug pName, dt, mkFilename (pySlug pName) (k dt + 1)⟩ = none :=
      lookupFS_none_of_not_mem st _ hnotmem
    have hconcat : ∀ m : Nat, List.range' 1 m ++ [m + 1] = List.range' 1 (m + 1) := by
      intro m
      have h1m : 1 + 1 * m = m + 1 := by omega
      rw [List.range'_concat, h1m]
    have hpart' : ∀ t, partitionFiles
        (writeFS st ⟨pySlug pName, dt, mkFilename (pySlug pName) (k dt + 1)⟩
          ⟨k dt + 1, now log.length, fmt log.length, pName, content log.length, some dt⟩)
        (pySlug pName) t =
        (List.range' 1 (if t = dt then k t + 1 else k t)).map (mkFilename (pySlug pName)) := by
      intro t
      rw [partitionFiles_write_fresh st _ _ hfresh]
      by_cases ht : t = dt
      · subst ht
        rw [if_pos ⟨rfl, rfl⟩, if_pos rfl, hpart t]
        rw [show ((List.range' 1 (k t)).map (mkFilename (pySlug pName)) ++
            [mkFilename (pySlug pName) (k t + 1)]) =
            ((List.range' 1 (k t) ++ [k t + 1]).map (mkFilename (pySlug pName))) by
          rw [List.map_append]; rfl]
        rw [hconcat (k t)]
      · rw [if_neg (fun hc => ht hc.2.symm), if_neg ht, hpart t]
        simp
    have hlog' : ∀ t, logVersions (log ++ [(dt, k dt + 1)]) t =
        List.range' 1 (if t = dt then k t + 1 else k t) := by
      intro t
      rw [logVersions_append]
      by_cases ht : t = dt
      · subst ht
        rw [if_pos rfl, if_pos rfl, hlog t, hconcat (k t)]
      · rw [if_neg (fun hc : dt = t => ht hc.symm), if_neg ht, hlog t]
        simp
    obtain ⟨st', log', hrun, hfin⟩ := ih _ _ _ hpart' hlog'
    refine ⟨st', log', ?_, ?_⟩
    · simp only [runSchedule, hsave]
      exact hrun
    · intro t
      rw [hfin t, countD_cons]
      by_cases ht : t = dt
      · subst ht
        rw [if_pos rfl, if_pos rfl]
        congr 1
        omega
      · rw [if_neg ht, if_neg (fun hc : dt = t => ht hc.symm)]
        congr 1
        omega

/-- Claim C1 (amended): for a project name whose slug does not contain the
substring `'_v'`, any interleaved schedule of saves starting from an empty
store assigns, per document type, the recorded versions 1, 2, 3, ... — a
strictly increasing sequence starting at 1, each being the maximum of the
versions parsed from the existing `*_v{n}.json` filenames of the partition
plus one — and saves to a different document type of the same project do not
affect the sequence.  (The unamended claim fails when the slug contains
`'_v'`: see the counterexample.) -/
theorem c1_thm (specsDir pName : Str) (content : Nat → Str) (now : Nat → Int)
    (fmt : Nat → Str) (ds : List Str) (h : hasV (pySlug pName) = false) :
    ∃ st log, runSchedule specsDir pName content now fmt ds [] [] = some (st, log) ∧
      ∀ t, logVersions log t = List.range' 1 (countD ds t) ∧
        (logVersions log t).Pairwise (· < ·) ∧
        (countD ds t ≠ 0 → (logVersions log t).headD 0 = 1) := by
  obtain ⟨st, log, hrun, hver⟩ := runSchedule_go specsDir pName content now fmt h ds [] []
    (fun _ => 0) (fun t => by simp [partitionFiles]) (fun t => by simp [logVersions])
  refine ⟨st, log, hrun, fun t => ?_⟩
  have hv : logVersions log t = List.range' 1 (countD ds t) := by
    simpa using hver t
  refine ⟨hv, ?_, ?_⟩
  · rw [hv]
    exact List.pairwise_lt_range' 1 (countD ds t)
  · intro hne
    rw [hv]
    match hk : countD ds t, hne with
    | m + 1, _ =>
      rw [List.range'_succ 1 m 1]
      rfl

theorem c1_witness :
    hasV (pySlug ("Acme".toList)) = false ∧
    (∃ st log, runSchedule exSpecsDir ("Acme".toList) (fun _ => ("body".toList)) (fun _ => 0)
        (fun _ => ("ts".toList)) [prDoc, etDoc, prDoc] [] [] = some (st, log) ∧
      ∀ t, logVersions log t = List.range' 1 (countD [prDoc, etDoc, prDoc] t) ∧
        (logVersions log t).Pairwise (· < ·) ∧
        (countD [prDoc, etDoc, prDoc] t ≠ 0 → (logVersions log t).headD 0 = 1)) :=
  ⟨by decide,
   c1_thm exSpecsDir ("Acme".toList) (fun _ => ("body".toList)) (fun _ => 0)
     (fun _ => ("ts".toList)) [prDoc, etDoc, prDoc] (by decide)⟩

/-- The unamended claim C1 fails: for the project name `"a v5"` (slug
`a_v5`, which contains `'_v'`), three saves to the same empty partition
record versions 1, 6, 6 — not strictly increasing and not `max + 1` of the
trailing version numbers — because the parse `f.split('_v')[1]` reads the
`5` of the slug rather than the trailing version, and the third save
overwrites the second file. -/
theorem c1_counterexample :
    (exBadRun.map (fun r => logVersions r.2 prDoc)) = some [1, 6, 6] ∧
    ¬ ([1, 6, 6].Pairwise (fun a b : Nat => a < b)) := by
  constructor
  · rfl
  · decide

/-- Claim C2: loading the path returned by a successful save yields a record
whose `specification` field is the saved content and whose `doc_type` field
is the requested document type. -/
theorem c2_thm (specsDir : Str) (st : FSStore) (pName c t : Str) (now : Int) (fmt : Str)
    (path : SpecPath) (r : SpecRecord) (st' : FSStore)
    (h : saveSpecification specsDir st pName c t now fmt = some (path, r, st')) :
    loadSpecification st' path = some r ∧ r.specification = c ∧ r.docType = some t := by
  simp only [saveSpecification] at h
  cases hnv : nextVersion (partitionFiles st (pySlug pName) t) with
  | none =>
    rw [hnv] at h
    simp at h
  | some v =>
    rw [hnv] at h
    simp only [] at h
    cases hrv : recordedVersion (pathStr specsDir
        ⟨pySlug pName, t, mkFilename (pySlug pName) v⟩) with
    | none =>
      rw [hrv] at h
      simp at h
    | some rv =>
      rw [hrv] at h
      simp only [Option.some.injEq, Prod.mk.injEq] at h
      obtain ⟨hpath, hrec, hst⟩ := h
      subst hpath hrec hst
      refine ⟨?_, rfl, rfl⟩
      rw [loadSpecification, lookupFS_writeFS_self]

theorem c2_witness :
    loadSpecification [(c2SavePath, c2SaveRec)] c2SavePath = some c2SaveRec ∧
    c2SaveRec.specification = ("body".toList) ∧ c2SaveRec.docType = some prDoc :=
  c2_thm exSpecsDir [] ("Acme".toList) ("body".toList) prDoc 5 ("ts".toList)
    c2SavePath c2SaveRec [(c2SavePath, c2SaveRec)] (by rfl)

theorem lookupM_setM_self : ∀ (fs : MigFS) (p : MPath) (v : Option LegacyRec),
    lookupM (setM fs p v) p = some v
  | [], p, v => by simp [setM, lookupM]
  | e :: es, p, v => by
    by_cases he : e.1 = p
    · rw [setM, if_pos he, lookupM, if_pos rfl]
    · rw [setM, if_neg he, lookupM, if_neg he, lookupM_setM_self es p v]

theorem lookupM_setM_ne : ∀ (fs : MigFS) (p q : MPath) (v : Option LegacyRec), q ≠ p →
    lookupM (setM fs p v) q = lookupM fs q
  | [], p, q, v, h => by simp [setM, lookupM, (Ne.symm h : p ≠ q)]
  | e :: es, p, q, v, h => by
    by_cases he : e.1 = p
    · have heq : ¬ e.1 = q := by
        rw [he]
        exact Ne.symm h
      rw [setM, if_pos he, lookupM, if_neg (show ¬ (p, v).1 = q from Ne.symm h),
         lookupM, if_neg heq]
    · rw [setM, if_neg he, lookupM, lookupM, lookupM_setM_ne es p q v h]

theorem setM_self : ∀ (fs : MigFS) (p : MPath) (v : Option LegacyRec),
    lookupM fs p = some v → setM fs p v = fs
  | [], p, v, h => by simp [lookupM] at h
  | (a, b) :: es, p, v, h => by
    by_cases he : a = p
    · subst he
      rw [lookupM, if_pos rfl] at h
      have hv : b = v := Option.some.inj h
      rw [setM, if_pos rfl, ← hv]
    · rw [lookupM, if_neg he] at h
      rw [setM, if_neg he, setM_self es p v h]

theorem destOf_congr {fs1 fs2 : MigFS} (it : LegacyItem)
    (h : lookupM fs1 it.path = lookupM fs2 it.path) : destOf fs1 it = destOf fs2 it := by
  simp only [destOf, h]

theorem scanLegacy_val (check : Str → Bool) (p : MPath) (v v' : Option LegacyRec) :
    scanLegacy check (p, v) = scanLegacy check (p, v') := rfl

theorem legacyItems_setM (check : Str → Bool) :
    ∀ (fs : MigFS) (d : MPath) (v : Option LegacyRec),
    scanLegacy check (d, v) = none →
    legacyItems check (setM fs d v) = legacyItems check fs
  | [], d, v, h => by simp [setM, legacyItems, h]
  | e :: es, d, v, h => by
    by_cases he : e.1 = d
    · rw [setM, if_pos he]
      have hse : scanLegacy check e = none := by
        obtain ⟨p, w⟩ := e
        simp at he
        rw [he, scanLegacy_val check d w v, h]
      simp [legacyItems, List.filterMap_cons, h, hse]
    · rw [setM, if_neg he]
      have ih := legacyItems_setM check es d v h
      simp only [legacyItems] at ih ⊢
      rw [List.filterMap_cons, List.filterMap_cons, ih]

theorem migrateGo_preserves_isSome : ∀ (items : List LegacyItem) (fs : MigFS) (q : MPath)
    (v : Option LegacyRec), lookupM fs q = some v →
    ∃ v', lookupM (migrateGo fs items).1 q = some v'
  | [], _, _, v, h => ⟨v, h⟩
  | it :: its, fs, q, v, h => by
    simp only [migrateGo]
    cases hd : destOf fs it with
    | none =>
      simp only [migrateOne, hd]
      exact migrateGo_preserves_isSome its fs q v h
    | some dr =>
      obtain ⟨d, r'⟩ := dr
      by_cases hc : lookupM fs d = none ∨ it.path ≠ d
      · simp only [migrateOne, hd, if_pos hc]
        by_cases hq : q = d
        · subst hq
          exact migrateGo_preserves_isSome its _ q (some r') (lookupM_setM_self fs q (some r'))
        · refine migrateGo_preserves_isSome its _ q v ?_
          rw [lookupM_setM_ne fs d q (some r') hq]
          exact h
      · simp only [migrateOne, hd, if_neg hc]
        exact migrateGo_preserves_isSome its fs q v h

theorem migrateGo_untouched (fs0 : MigFS) (S : List MPath) :
    ∀ (items : List LegacyItem) (fsCur : MigFS) (q : MPath),
    (∀ it ∈ items, it.path ∈ S) →
    (∀ p ∈ S, lookupM fsCur p = lookupM fs0 p) →
    (∀ it ∈ items, ∀ d r', destOf fs0 it = some (d, r') → d ∉ S ∧ q ≠ d) →
    lookupM (migrateGo fsCur items).1 q = lookupM fsCur q
  | [], _, _, _, _, _ => rfl
  | it :: its, fsCur, q, hin, hcur, hq => by
    have hpathS : it.path ∈ S := hin it (List.mem_cons_self it its)
    have hdc : destOf fsCur it = destOf fs0 it := destOf_congr it (hcur it.path hpathS)
    cases hd : destOf fs0 it with
    | none =>
      simp only [migrateGo, migrateOne, hdc, hd]
      exact migrateGo_untouched fs0 S its fsCur q
        (fun i hi => hin i (List.mem_cons_of_mem _ hi)) hcur
        (fun i hi => hq i (List.mem_cons_of_mem _ hi))
    | some dr =>
      obtain ⟨d, r'⟩ := dr
      obtain ⟨hdS, hqd⟩ := hq it (List.mem_cons_self it its) d r' hd
      have hne : it.path ≠ d := fun he => hdS (he ▸ hpathS)
      simp only [migrateGo, migrateOne, hdc, hd, if_pos (Or.inr hne)]
      have hcur' : ∀ p ∈ S, lookupM (setM fsCur d (some r')) p = lookupM fs0 p := by
        intro p hp
        rw [lookupM_setM_ne fsCur d p (some r') (fun he => hdS (he ▸ hp)), hcur p hp]
      rw [migrateGo_untouched fs0 S its _ q
        (fun i hi => hin i (List.mem_cons_of_mem _ hi)) hcur'
        (fun i hi => hq i (List.mem_cons_of_mem _ hi))]
      exact lookupM_setM_ne fsCur d q (some r') hqd

theorem migrateGo_scan (check : Str → Bool) (fs0 : MigFS) (S : List MPath) :
    ∀ (items : List LegacyItem) (fsCur : MigFS),
    (∀ it ∈ items, it.path ∈ S) →
    (∀ p ∈ S, lookupM fsCur p = lookupM fs0 p) →
    (∀ it ∈ items, ∀ d r', destOf fs0 it = some (d, r') →
      d ∉ S ∧ scanLegacy check (d, some r') = none) →
    legacyItems check (migrateGo fsCur items).1 = legacyItems check fsCur
  | [], _, _, _, _ => rfl
  | it :: its, fsCur, hin, hcur, hsc => by
    have hpathS : it.path ∈ S := hin it (List.mem_cons_self it its)
    have hdc : destOf fsCur it = destOf fs0 it := destOf_congr it (hcur it.path hpathS)
    cases hd : destOf fs0 it with
    | none =>
      simp only [migrateGo, migrateOne, hdc, hd]
      exact migrateGo_scan check fs0 S its fsCur
        (fun i hi => hin i (List.mem_cons_of_mem _ hi)) hcur
        (fun i hi => hsc i (List.mem_cons_of_mem _ hi))
    | some dr =>
      obtain ⟨d, r'⟩ := dr
      obtain ⟨hdS, hscan⟩ := hsc it (List.mem_cons_self it its) d r' hd
      have hne : it.path ≠ d := fun he => hdS (he ▸ hpathS)
      simp only [migrateGo, migrateOne, hdc, hd, if_pos (Or.inr hne)]
      have hcur' : ∀ p ∈ S, lookupM (setM fsCur d (some r')) p = lookupM fs0 p := by
        intro p hp
        rw [lookupM_setM_ne fsCur d p (some r') (fun he => hdS (he ▸ hp)), hcur p hp]
      rw [migrateGo_scan check fs0 S its _
        (fun i hi => hin i (List.mem_cons_of_mem _ hi)) hcur'
        (fun i hi => hsc i (List.mem_cons_of_mem _ hi))]
      exact legacyItems_setM check fsCur d (some r') hscan

theorem migrateGo_main (fs0 : MigFS) (S : List MPath) :
    ∀ (items : List LegacyItem) (fsCur : MigFS),
    (∀ it ∈ items, it.path ∈ S) →
    (∀ p ∈ S, lookupM fsCur p = lookupM fs0 p) →
    (∀ it ∈ items, ∀ d r', destOf fs0 it = some (d, r') → d ∉ S) →
    List.Pairwise (fun a b => ∀ d r' d₂ r₂', destOf fs0 a = some (d, r') →
      destOf fs0 b = some (d₂, r₂') → d ≠ d₂) items →
    (∀ q ∈ S, lookupM (migrateGo fsCur items).1 q = lookupM fs0 q) ∧
    (∀ it ∈ items, ∀ d r', destOf fs0 it = some (d, r') →
      lookupM (migrateGo fsCur items).1 d = some (some r'))
  | [], fsCur, _, hcur, _, _ => ⟨fun q hq => hcur q hq, by simp⟩
  | it :: its, fsCur, hin, hcur, hdS, hpair => by
    have hpathS : it.path ∈ S := hin it (List.mem_cons_self it its)
    have hdc : destOf fsCur it = destOf fs0 it := destOf_congr it (hcur it.path hpathS)
    obtain ⟨hpr, hpairs⟩ := List.pairwise_cons.mp hpair
    cases hd : destOf fs0 it with
    | none =>
      simp only [migrateGo, migrateOne, hdc, hd]
      obtain ⟨ih1, ih2⟩ := migrateGo_main fs0 S its fsCur
        (fun i hi => hin i (List.mem_cons_of_mem _ hi)) hcur
        (fun i hi => hdS i (List.mem_cons_of_mem _ hi)) hpairs
      refine ⟨ih1, ?_⟩
      intro it₂ hmem d₂ r₂ hd₂
      rcases List.mem_cons.mp hmem with he | hm
      · subst he
        rw [hd] at hd₂
        exact absurd hd₂ (by simp)
      · exact ih2 it₂ hm d₂ r₂ hd₂
    | some dr =>
      obtain ⟨d, r'⟩ := dr
      have hdS0 : d ∉ S := hdS it (List.mem_cons_self it its) d r' hd
      have hne : it.path ≠ d := fun he => hdS0 (he ▸ hpathS)
      simp only [migrateGo, migrateOne, hdc, hd, if_pos (Or.inr hne)]
      have hcur' : ∀ p ∈ S, lookupM (setM fsCur d (some r')) p = lookupM fs0 p := by
        intro p hp
        rw [lookupM_setM_ne fsCur d p (some r') (fun he => hdS0 (he ▸ hp)), hcur p hp]
      obtain ⟨ih1, ih2⟩ := migrateGo_main fs0 S its (setM fsCur d (some r'))
        (fun i hi => hin i (List.mem_cons_of_mem _ hi)) hcur'
        (fun i hi => hdS i (List.mem_cons_of_mem _ hi)) hpairs
      refine ⟨ih1, ?_⟩
      intro it₂ hmem d₂ r₂ hd₂
      rcases List.mem_cons.mp hmem with he | hm
      · subst he
        rw [hd] at hd₂
        simp only [Option.some.injEq, Prod.mk.injEq] at hd₂
        obtain ⟨hdd, hrr⟩ := hd₂
        subst hdd hrr
        rw [migrateGo_untouched fs0 S its (setM fsCur d (some r')) d
          (fun i hi => hin i (List.mem_cons_of_mem _ hi)) hcur'
          (fun i hi d' r'' hd' =>
            ⟨hdS i (List.mem_cons_of_mem _ hi) d' r'' hd', hpr i hi d r' d' r'' hd hd'⟩)]
        exact lookupM_setM_self fsCur d (some r')
      · exact ih2 it₂ hm d₂ r₂ hd₂

theorem migrateGo_id : ∀ (items : List LegacyItem) (fs : MigFS),
    (∀ it ∈ items, ∀ d r', destOf fs it = some (d, r') →
      lookupM fs d = some (some r') ∧ it.path ≠ d) →
    (migrateGo fs items).1 = fs
  | [], _, _ => rfl
  | it :: its, fs, h => by
    cases hd : destOf fs it with
    | none =>
      simp only [migrateGo, migrateOne, hd]
      exact migrateGo_id its fs (fun i hi => h i (List.mem_cons_of_mem _ hi))
    | some dr =>
      obtain ⟨d, r'⟩ := dr
      obtain ⟨hl, hne⟩ := h it (List.mem_cons_self it its) d r' hd
      simp only [migrateGo, migrateOne, hd, if_pos (Or.inr hne)]
      rw [setM_self fs d (some r') hl]
      exact migrateGo_id its fs (fun i hi => h i (List.mem_cons_of_mem _ hi))

/-- Claim C9 (amended): the legacy migration deletes nothing (every file
present before is present after); when no computed destination coincides with
a legacy source path, the original legacy files are bit-for-bit untouched;
and — although a second run re-copies instead of skipping (see the
counterexample) — rerunning leaves the store unchanged, because each
destination already holds exactly the record the rerun writes again, provided
the destinations are pairwise distinct and are not themselves picked up by
the legacy scan. -/
theorem c9_thm (check : Str → Bool) (fs : MigFS)
    (hdisj : ∀ it ∈ legacyItems check fs, ∀ d r', destOf fs it = some (d, r') →
      ∀ it₂ ∈ legacyItems check fs, d ≠ it₂.path)
    (hscan : ∀ it ∈ legacyItems check fs, ∀ d r', destOf fs it = some (d, r') →
      scanLegacy check (d, some r') = none)
    (hpair : List.Pairwise (fun a b => ∀ d r' d₂ r₂', destOf fs a = some (d, r') →
      destOf fs b = some (d₂, r₂') → d ≠ d₂) (legacyItems check fs)) :
    (∀ p v, lookupM fs p = some v → ∃ v', lookupM (migrate check fs).1 p = some v') ∧
    (∀ it ∈ legacyItems check fs,
      lookupM (migrate check fs).1 it.path = lookupM fs it.path) ∧
    (migrate check (migrate check fs).1).1 = (migrate check fs).1 := by
  have hin : ∀ it ∈ legacyItems check fs,
      it.path ∈ (legacyItems check fs).map LegacyItem.path :=
    fun it hit => List.mem_map_of_mem _ hit
  have hdS : ∀ it ∈ legacyItems check fs, ∀ d r', destOf fs it = some (d, r') →
      d ∉ (legacyItems check fs).map LegacyItem.path := by
    intro it hit d r' hd hmem
    obtain ⟨it₂, hit₂, hpe⟩ := List.mem_map.mp hmem
    exact hdisj it hit d r' hd it₂ hit₂ hpe.symm
  have hcur0 : ∀ p ∈ (legacyItems check fs).map LegacyItem.path,
      lookupM fs p = lookupM fs p := fun _ _ => rfl
  obtain ⟨hmain1, hmain2⟩ := migrateGo_main fs ((legacyItems check fs).map LegacyItem.path)
    (legacyItems check fs) fs hin hcur0 hdS hpair
  refine ⟨?_, ?_, ?_⟩
  · intro p v h
    exact migrateGo_preserves_isSome (legacyItems check fs) fs p v h
  · intro it hit
    exact hmain1 it.path (List.mem_map_of_mem _ hit)
  · have hitems1 : legacyItems check (migrate check fs).1 = legacyItems check fs :=
      migrateGo_scan check fs ((legacyItems check fs).map LegacyItem.path)
        (legacyItems check fs) fs hin hcur0
        (fun i hi d r' hd => ⟨hdS i hi d r' hd, hscan i hi d r' hd⟩)
    show (migrateGo (migrate check fs).1 (legacyItems check (migrate check fs).1)).1 =
      (migrate check fs).1
    rw [hitems1]
    apply migrateGo_id
    intro it hit d r' hd
    have hsrc : lookupM (migrate check fs).1 it.path = lookupM fs it.path :=
      hmain1 it.path (List.mem_map_of_mem _ hit)
    have hdfs : destOf fs it = some (d, r') := by
      rw [← destOf_congr it hsrc]
      exact hd
    exact ⟨hmain2 it hit d r' hdfs,
      fun he => hdisj it hit d r' hdfs it hit he.symm⟩

theorem c9_witness :
    (∀ p v, lookupM exMigFS p = some v →
      ∃ v', lookupM (migrate exCheck exMigFS).1 p = some v') ∧
    (∀ it ∈ legacyItems exCheck exMigFS,
      lookupM (migrate exCheck exMigFS).1 it.path = lookupM exMigFS it.path) ∧
    (migrate exCheck (migrate exCheck exMigFS).1).1 = (migrate exCheck exMigFS).1 := by
  have hitems : legacyItems exCheck exMigFS = [⟨[("acme_v1.json".toList)], none⟩] := by rfl
  have hdest : destOf exMigFS ⟨[("acme_v1.json".toList)], none⟩ =
      some (exMigDest, ⟨some ("Acme".toList), some prDoc, 7⟩) := by rfl
  apply c9_thm
  · intro it hit d r' hd it₂ hit₂
    rw [hitems, List.mem_singleton] at hit hit₂
    subst hit hit₂
    rw [hdest] at hd
    simp only [Option.some.injEq, Prod.mk.injEq] at hd
    obtain ⟨hd1, _⟩ := hd
    subst hd1
    decide
  · intro it hit d r' hd
    rw [hitems, List.mem_singleton] at hit
    subst hit
    rw [hdest] at hd
    simp only [Option.some.injEq, Prod.mk.injEq] at hd
    obtain ⟨hd1, hd2⟩ := hd
    subst hd1 hd2
    decide
  · rw [hitems]
    exact List.pairwise_singleton _ _
